import Mathlib

/-!
Verification development for the Transight repository.

Shallow embedding of two components:

* `src/dataAnalysis/geocode.py` — the text normalizer `clean_location_string`,
  the three reference indexes built by `geocode_with_stops` (exact, station,
  intersection) and the per-row resolver `get_coords` with its five tagged
  outcomes (exact / station / intersection / partial / failed).

* `src/machineLearning/predictor.py` — `_engineer_prediction_features` and
  `predict_delay` of class `DelayPredictor`.

Embedding conventions:

* Strings are `List Char` (`Str`).  Python `re` character classes are modelled
  for the ASCII range (`\w` = letters, digits, underscore; `\s` = the usual
  whitespace characters), which covers the data domain of the program.
* Python floats are modelled as `ℚ`; `np.sin`, `np.cos`, `np.sqrt` and the
  trained model itself are external library calls and enter the embedding as
  function parameters.
* Code that can raise (`KeyError` on the season map, `IndexError` on the
  day-name list, `AttributeError` on `self.incident_types`) is modelled with
  `Option`.
-/

abbrev Str := List Char

def strL (s : String) : Str := s.data

/-- ASCII model of the regex class `\w` (word character). -/
def isWordChar (c : Char) : Bool :=
  ('a' ≤ c && c ≤ 'z') || ('A' ≤ c && c ≤ 'Z') || ('0' ≤ c && c ≤ '9') || c = '_'

/-- ASCII model of the regex class `\s` (whitespace). -/
def isSpc (c : Char) : Bool :=
  c = ' ' || c = '\t' || c = '\n' || c = '\r' || c = '\x0b' || c = '\x0c'

/-- `True` when a `\b` word boundary holds between a word character and the
start of `s` (end of string, or a non-word character). -/
def boundaryOk (s : Str) : Bool :=
  match s with
  | [] => true
  | c :: _ => !isWordChar c

/-- `s.strip()` on one side: drop leading whitespace. -/
def dropLead (s : Str) : Str := s.dropWhile isSpc

/-- Python `str.strip()`: drop leading and trailing whitespace. -/
def stripWs (s : Str) : Str := ((dropLead s).reverse.dropWhile isSpc).reverse

/-- Python `str.strip('"')`: drop leading and trailing double quotes. -/
def stripQ (s : Str) : Str :=
  ((s.dropWhile (fun c => c = '"')).reverse.dropWhile (fun c => c = '"')).reverse

def stationW : Str := ['s', 't', 'a', 't', 'i', 'o', 'n']

/-- `re.sub(r'\bstatio\b', 'station', s)`: left-to-right scan; `prevW` records
whether the character just before the current position is a word character. -/
def subStatioA : Bool → Str → Str
  | _, [] => []
  | prevW, 's' :: 't' :: 'a' :: 't' :: 'i' :: 'o' :: rest =>
      if !prevW && boundaryOk rest then stationW ++ subStatioA true rest
      else 's' :: subStatioA true ('t' :: 'a' :: 't' :: 'i' :: 'o' :: rest)
  | _, c :: rest => c :: subStatioA (isWordChar c) rest

/-- `re.sub(r'\bsta\b', 'station', s)`. -/
def subStaA : Bool → Str → Str
  | _, [] => []
  | prevW, 's' :: 't' :: 'a' :: rest =>
      if !prevW && boundaryOk rest then stationW ++ subStaA true rest
      else 's' :: subStaA true ('t' :: 'a' :: rest)
  | _, c :: rest => c :: subStaA (isWordChar c) rest

/-- `re.sub(r'\bstn\b', 'station', s)`. -/
def subStnA : Bool → Str → Str
  | _, [] => []
  | prevW, 's' :: 't' :: 'n' :: rest =>
      if !prevW && boundaryOk rest then stationW ++ subStnA true rest
      else 's' :: subStnA true ('t' :: 'n' :: rest)
  | _, c :: rest => c :: subStnA (isWordChar c) rest

/-- `re.sub(r'\bave\.?\b', 'ave', s)`.  A trailing `.` is part of the match
only when a word character follows it (otherwise `\b` fails after the dot and
the regex backtracks to the dot-less alternative). -/
def subAveA : Bool → Str → Str
  | _, [] => []
  | prevW, 'a' :: 'v' :: 'e' :: '.' :: d :: rest =>
      if prevW then 'a' :: subAveA true ('v' :: 'e' :: '.' :: d :: rest)
      else if isWordChar d then 'a' :: 'v' :: 'e' :: subAveA false (d :: rest)
      else 'a' :: 'v' :: 'e' :: subAveA true ('.' :: d :: rest)
  | prevW, 'a' :: 'v' :: 'e' :: rest =>
      if prevW then 'a' :: subAveA true ('v' :: 'e' :: rest)
      else if boundaryOk rest then 'a' :: 'v' :: 'e' :: subAveA true rest
      else 'a' :: subAveA true ('v' :: 'e' :: rest)
  | _, c :: rest => c :: subAveA (isWordChar c) rest

/-- `re.sub(r'\brd\.?\b', 'rd', s)`. -/
def subRdA : Bool → Str → Str
  | _, [] => []
  | prevW, 'r' :: 'd' :: '.' :: d :: rest =>
      if prevW then 'r' :: subRdA true ('d' :: '.' :: d :: rest)
      else if isWordChar d then 'r' :: 'd' :: subRdA false (d :: rest)
      else 'r' :: 'd' :: subRdA true ('.' :: d :: rest)
  | prevW, 'r' :: 'd' :: rest =>
      if prevW then 'r' :: subRdA true ('d' :: rest)
      else if boundaryOk rest then 'r' :: 'd' :: subRdA true rest
      else 'r' :: subRdA true ('d' :: rest)
  | _, c :: rest => c :: subRdA (isWordChar c) rest

/-- `re.sub(r'\bblvd\.?\b', 'blvd', s)`. -/
def subBlvdA : Bool → Str → Str
  | _, [] => []
  | prevW, 'b' :: 'l' :: 'v' :: 'd' :: '.' :: d :: rest =>
      if prevW then 'b' :: subBlvdA true ('l' :: 'v' :: 'd' :: '.' :: d :: rest)
      else if isWordChar d then 'b' :: 'l' :: 'v' :: 'd' :: subBlvdA false (d :: rest)
      else 'b' :: 'l' :: 'v' :: 'd' :: subBlvdA true ('.' :: d :: rest)
  | prevW, 'b' :: 'l' :: 'v' :: 'd' :: rest =>
      if prevW then 'b' :: subBlvdA true ('l' :: 'v' :: 'd' :: rest)
      else if boundaryOk rest then 'b' :: 'l' :: 'v' :: 'd' :: subBlvdA true rest
      else 'b' :: subBlvdA true ('l' :: 'v' :: 'd' :: rest)
  | _, c :: rest => c :: subBlvdA (isWordChar c) rest

/-- `re.sub(r'\bst\.?\b', 'st', s)`. -/
def subStA : Bool → Str → Str
  | _, [] => []
  | prevW, 's' :: 't' :: '.' :: d :: rest =>
      if prevW then 's' :: subStA true ('t' :: '.' :: d :: rest)
      else if isWordChar d then 's' :: 't' :: subStA false (d :: rest)
      else 's' :: 't' :: subStA true ('.' :: d :: rest)
  | prevW, 's' :: 't' :: rest =>
      if prevW then 's' :: subStA true ('t' :: rest)
      else if boundaryOk rest then 's' :: 't' :: subStA true rest
      else 's' :: subStA true ('t' :: rest)
  | _, c :: rest => c :: subStA (isWordChar c) rest

/-- `re.sub(r'\bdr\.?\b', 'dr', s)`. -/
def subDrA : Bool → Str → Str
  | _, [] => []
  | prevW, 'd' :: 'r' :: '.' :: d :: rest =>
      if prevW then 'd' :: subDrA true ('r' :: '.' :: d :: rest)
      else if isWordChar d then 'd' :: 'r' :: subDrA false (d :: rest)
      else 'd' :: 'r' :: subDrA true ('.' :: d :: rest)
  | prevW, 'd' :: 'r' :: rest =>
      if prevW then 'd' :: subDrA true ('r' :: rest)
      else if boundaryOk rest then 'd' :: 'r' :: subDrA true rest
      else 'd' :: subDrA true ('r' :: rest)
  | _, c :: rest => c :: subDrA (isWordChar c) rest

/-- `re.sub(r'\s+(at|and|&)\s+', ' at ', s)`.  `pend` holds the whitespace run
read since the last non-space character (the candidate leading `\s+`);
`swallow` is set while the greedy trailing `\s+` of a completed match is being
consumed. -/
def connA (pend : Str) (swallow : Bool) : Str → Str
  | [] => pend
  | 'a' :: 't' :: d :: rest =>
      if pend.isEmpty then 'a' :: connA [] false ('t' :: d :: rest)
      else if isSpc d then ' ' :: 'a' :: 't' :: ' ' :: connA [] true (d :: rest)
      else pend ++ 'a' :: connA [] false ('t' :: d :: rest)
  | 'a' :: 'n' :: 'd' :: d :: rest =>
      if pend.isEmpty then 'a' :: connA [] false ('n' :: 'd' :: d :: rest)
      else if isSpc d then ' ' :: 'a' :: 't' :: ' ' :: connA [] true (d :: rest)
      else pend ++ 'a' :: connA [] false ('n' :: 'd' :: d :: rest)
  | '&' :: d :: rest =>
      if pend.isEmpty then '&' :: connA [] false (d :: rest)
      else if isSpc d then ' ' :: 'a' :: 't' :: ' ' :: connA [] true (d :: rest)
      else pend ++ '&' :: connA [] false (d :: rest)
  | c :: rest =>
      if isSpc c then (if swallow then connA [] true rest else connA (pend ++ [c]) false rest)
      else if pend.isEmpty then c :: connA [] false rest
      else pend ++ c :: connA [] false rest

/-- `re.sub(r'[^\w\s]', ' ', s)`. -/
def subPunct (s : Str) : Str :=
  s.map (fun c => if isWordChar c || isSpc c then c else ' ')

/-- `re.sub(r'\s+', ' ', s)`: every maximal whitespace run becomes one `' '`. -/
def collapseWs : Str → Str
  | [] => []
  | [c] => if isSpc c then [' '] else [c]
  | c :: d :: rest =>
      if isSpc c then
        (if isSpc d then collapseWs (d :: rest) else ' ' :: collapseWs (d :: rest))
      else c :: collapseWs (d :: rest)

/-- `clean_location_string` of `src/dataAnalysis/geocode.py` (the string path;
non-string/NaN input is handled by `cleanOpt`). -/
def cleanL (s : Str) : Str :=
  let t0 := stripWs (s.map Char.toLower)
  let t1 := stripWs (stripQ t0)
  let t2 := subStatioA false t1
  let t3 := subStaA false t2
  let t4 := subStnA false t3
  let t5 := subAveA false t4
  let t6 := subRdA false t5
  let t7 := subBlvdA false t6
  let t8 := subStA false t7
  let t9 := subDrA false t8
  let t10 := connA [] false t9
  let t11 := subPunct t10
  stripWs (collapseWs t11)

/-- `clean_location_string` including its guard: `None`/non-string input maps
to the empty string. -/
def cleanOpt : Option Str → Str
  | none => []
  | some s => cleanL s

/-! ## Reference index builder and resolver (`geocode_with_stops` / `get_coords`) -/

/-- Python `str.split()` (split on whitespace runs, no empty tokens). -/
def tokensOf : Str → List Str
  | [] => []
  | [c] => if isSpc c then [] else [[c]]
  | c :: d :: rest =>
      if isSpc c then tokensOf (d :: rest)
      else
        if isSpc d then [c] :: tokensOf (d :: rest)
        else
          match tokensOf (d :: rest) with
          | [] => [[c]]
          | t :: ts => (c :: t) :: ts

/-- `' '.join(parts)`. -/
def joinSp : List Str → Str
  | [] => []
  | [t] => t
  | t :: ts => t ++ ' ' :: joinSp ts

/-- Python `s.split(' at ')`: split on the literal separator, leftmost-first,
non-overlapping. -/
def splitAtSep : Str → List Str
  | [] => [[]]
  | ' ' :: 'a' :: 't' :: ' ' :: rest => [] :: splitAtSep rest
  | c :: rest =>
      match splitAtSep rest with
      | [] => [[c]]
      | h :: t => (c :: h) :: t

/-- Python `sub in s` (substring containment). -/
def hasSub (pat : Str) : Str → Bool
  | [] => pat.isEmpty
  | c :: rest => pat.isPrefixOf (c :: rest) || hasSub pat rest

/-- A row of `stops.txt`: `stop_name`, `stop_lat`, `stop_lon`. -/
structure Stop where
  name : Str
  lat : ℚ
  lon : ℚ
deriving DecidableEq

/-- Arithmetic mean of a list of rationals (callers only use nonempty lists;
pandas `mean` of an empty group never arises at those call sites). -/
def avgQ (l : List ℚ) : ℚ := l.sum / l.length

def avgPair (l : List (ℚ × ℚ)) : ℚ × ℚ := (avgQ (l.map Prod.fst), avgQ (l.map Prod.snd))

/-- The group of stops sharing the normalized name `k`
(`stops_df.groupby('cleaned_name')`). -/
def exactGroup (stops : List Stop) (k : Str) : List Stop :=
  stops.filter (fun r => cleanL r.name = k)

/-- `exact_dict` lookup: mean latitude/longitude over the group with
normalized name `k`, or `none` when `k` is not a key. -/
def exactLookup (stops : List Stop) (k : Str) : Option (ℚ × ℚ) :=
  match exactGroup stops k with
  | [] => none
  | g => some (avgPair (g.map (fun r => (r.lat, r.lon))))

/-- The distinct keys of `exact_dict`. -/
def exactKeys (stops : List Stop) : List Str :=
  (stops.map (fun r => cleanL r.name)).dedup

/-- `exact_dict.items()`: association list of keys and averaged coordinates
(iteration order of the dict; only used by the partial-match fold, whose
accepted score does not depend on this order for the properties proved). -/
def exactItems (stops : List Stop) : List (Str × (ℚ × ℚ)) :=
  (exactKeys stops).filterMap
    (fun k => (exactLookup stops k).map (fun c => (k, c)))

/-- The station keys contributed by one normalized stop name: for every
occurrence of the token `station` at position `i > 0`, the single window of
tokens from `max 0 (i-3)` to `i` (the loop body of the station-index builder
in `geocode_with_stops`). -/
def stationWindows (cleaned : Str) : List Str :=
  let parts := tokensOf cleaned
  if hasSub stationW cleaned then
    (List.range parts.length).filterMap
      (fun i =>
        if parts.get? i = some stationW ∧ 0 < i then
          some (joinSp ((parts.drop (i - 3)).take (i - (i - 3) + 1)))
        else none)
  else []

/-- All `(key, raw coordinate)` pairs accumulated into `station_dict`. -/
def stationPairs (stops : List Stop) : List (Str × (ℚ × ℚ)) :=
  stops.flatMap (fun r => (stationWindows (cleanL r.name)).map (fun k => (k, (r.lat, r.lon))))

/-- The raw coordinates accumulated under station key `k`. -/
def stationContribs (stops : List Stop) (k : Str) : List (ℚ × ℚ) :=
  ((stationPairs stops).filter (fun p => p.1 = k)).map Prod.snd

/-- `station_avg_dict` lookup: average of the accumulated coordinates. -/
def stationLookup (stops : List Stop) (k : Str) : Option (ℚ × ℚ) :=
  match stationContribs stops k with
  | [] => none
  | l => some (avgPair l)

/-- Lexicographic (code-point) comparison, as used by Python `sorted` on a
pair of strings. -/
def lexLe : Str → Str → Bool
  | [], _ => true
  | _ :: _, [] => false
  | a :: as, b :: bs => if a = b then lexLe as bs else decide (a < b)

/-- `tuple(sorted([s1, s2]))`. -/
def sortPair (a b : Str) : Str × Str := if lexLe a b then (a, b) else (b, a)

/-- The intersection key contributed by a normalized name: requires `' at '`
as a substring, exactly two parts after splitting on `' at '`, and a first
token on each side. -/
def interKeyOf (cleaned : Str) : Option (Str × Str) :=
  if hasSub (strL " at ") cleaned then
    match splitAtSep cleaned with
    | [p1, p2] =>
        match (tokensOf p1).head?, (tokensOf p2).head? with
        | some s1, some s2 => some (sortPair s1 s2)
        | _, _ => none
    | _ => none
  else none

/-- The raw coordinates accumulated under intersection key `k`
(`intersection_dict`). -/
def interContribs (stops : List Stop) (k : Str × Str) : List (ℚ × ℚ) :=
  (stops.filter (fun r => interKeyOf (cleanL r.name) = some k)).map (fun r => (r.lat, r.lon))

/-- `intersection_avg_dict` lookup. -/
def interLookup (stops : List Stop) (k : Str × Str) : Option (ℚ × ℚ) :=
  match interContribs stops k with
  | [] => none
  | l => some (avgPair l)

/-- The stop-word set excluded from partial-match overlap counting. -/
def stopWords : Finset Str :=
  {strL "at", strL "and", strL "the", strL "station", strL "st", strL "ave", strL "rd"}

/-- `common_words`: the tokens shared by the query and an `exact_dict` key,
stop words excluded. -/
def commonWords (locW : Finset Str) (key : Str) : Finset Str :=
  (locW ∩ (tokensOf key).toFinset) \ stopWords

/-- A candidate qualifies when it shares at least two meaningful tokens. -/
abbrev qualifies (locW : Finset Str) (key : Str) : Prop :=
  2 ≤ (commonWords locW key).card

/-- `score = len(common_words) / len(loc_words | stop_words)`. -/
def pscore (locW : Finset Str) (key : Str) : ℚ :=
  ((commonWords locW key).card : ℚ) / (((locW ∪ (tokensOf key).toFinset).card : ℚ))

/-- One step of the partial-match fold over `exact_dict.items()`: keep the
candidate when it shares ≥ 2 meaningful tokens and strictly beats the best
score so far. -/
def partialStep (locW : Finset Str) (best : Option (ℚ × ℚ) × ℚ) (item : Str × (ℚ × ℚ)) :
    Option (ℚ × ℚ) × ℚ :=
  if qualifies locW item.1 then
    (if best.2 < pscore locW item.1 then (some item.2, pscore locW item.1) else best)
  else best

/-- The partial-match fold (`best_match`, `best_score`). -/
def partialBest (items : List (Str × (ℚ × ℚ))) (locW : Finset Str) : Option (ℚ × ℚ) × ℚ :=
  items.foldl (partialStep locW) (none, 0)

/-- The five tagged outcomes counted in `stats`. -/
inductive Strat where
  | exact
  | station
  | intersection
  | partialTag
  | failed
deriving DecidableEq

/-- Progressive station patterns of `get_coords`: the first index of the token
`station`, then every window start from `max 0 (idx-3)` to `idx-1` in
ascending order (widest window first). -/
def stationProgressive (stops : List Stop) (loc : Str) : Option (ℚ × ℚ) :=
  let words := tokensOf loc
  if stationW ∈ words then
    let idx := words.takeWhile (fun w => w ≠ stationW) |>.length
    ((List.range idx).filter (fun start => idx ≤ start + 3)).findSome?
      (fun start => stationLookup stops (joinSp ((words.drop start).take (idx - start + 1))))
  else none

/-- Strategy 3 of `get_coords`. -/
def interStrategy (stops : List Stop) (loc : Str) : Option (ℚ × ℚ) :=
  if hasSub (strL " at ") loc then
    match splitAtSep loc with
    | [p1, p2] =>
        match (tokensOf p1).head?, (tokensOf p2).head? with
        | some s1, some s2 => interLookup stops (sortPair s1 s2)
        | _, _ => none
    | _ => none
  else none

/-- Strategy 4 of `get_coords`: only attempted when the location has at least
2 distinct tokens; accepted only when the best score is at least `0.5`. -/
def partialStrategy (stops : List Stop) (locW : Finset Str) : Option (ℚ × ℚ) :=
  if 2 ≤ locW.card then
    let best := partialBest (exactItems stops) locW
    match best.1 with
    | some c => if 1/2 ≤ best.2 then some c else none
    | none => none
  else none

/-- Strategy 2 of `get_coords`: whole-string station lookup, then progressive
patterns, attempted only when the location contains `station` as a
substring. -/
def stationStrategy (stops : List Stop) (loc : Str) : Option (ℚ × ℚ) :=
  if hasSub stationW loc then
    match stationLookup stops loc with
    | some c => some c
    | none => stationProgressive stops loc
  else none

/-- `get_coords(cleaned_loc)` together with which `stats` counter the call
increments. -/
def resolveClean (stops : List Stop) (loc : Str) : Option (ℚ × ℚ) × Strat :=
  if loc.isEmpty then (none, Strat.failed)
  else
    match exactLookup stops loc with
    | some c => (some c, Strat.exact)
    | none =>
      match stationStrategy stops loc with
      | some c => (some c, Strat.station)
      | none =>
        match interStrategy stops loc with
        | some c => (some c, Strat.intersection)
        | none =>
          match partialStrategy stops ((tokensOf loc).toFinset) with
          | some c => (some c, Strat.partialTag)
          | none => (none, Strat.failed)

/-- Normalization followed by resolution, as the dataframe pipeline applies it
to every location value. -/
def resolveRaw (stops : List Stop) (raw : Option Str) : Option (ℚ × ℚ) × Strat :=
  resolveClean stops (cleanOpt raw)

/-! ## Feature reconstruction and prediction (`DelayPredictor` of
`src/machineLearning/predictor.py`) -/

/-- The fields of a Python `datetime` object read by
`_engineer_prediction_features` (`weekday()` is 0 = Monday … 6 = Sunday). -/
structure DT where
  year : ℕ
  month : ℕ
  day : ℕ
  weekday : ℕ
  hour : ℕ
  minute : ℕ
  yday : ℕ
  isoweek : ℕ

/-- A well-formed `datetime` value: Python guarantees a month in 1..12 and a
weekday in 0..6. -/
def validDT (dt : DT) : Prop := 1 ≤ dt.month ∧ dt.month ≤ 12 ∧ dt.weekday < 7

instance : DecidablePred validDT := fun dt => by unfold validDT; infer_instance

/-- One row of the historical dataset used for the aggregate fallbacks. -/
structure HistRow where
  route : Str
  incident : Str
  lat : ℚ
  lon : ℚ
  delay : ℚ

/-- The loaded predictor state: `feature_columns` from the model artifact,
the optional historical dataframe, and the external numeric collaborators
(`np.sin`/`np.cos` composed with `2π·`, `np.sqrt`, and the trained model's
`predict`). -/
structure Predictor where
  featureCols : List Str
  hist : Option (List HistRow)
  sin2pi : ℚ → ℚ
  cos2pi : ℚ → ℚ
  sqrtQ : ℚ → ℚ
  model : List ℚ → ℚ

/-- Python-dict insertion: overwrite in place when the key exists, append
otherwise. -/
def dinsert (k : Str) (v : ℚ) : List (Str × ℚ) → List (Str × ℚ)
  | [] => [(k, v)]
  | (k', v') :: t => if k' = k then (k, v) :: t else (k', v') :: dinsert k v t

/-- Python-dict lookup. -/
def dget (k : Str) : List (Str × ℚ) → Option ℚ
  | [] => none
  | (k', v) :: t => if k' = k then some v else dget k t

/-- The `season_map` dict: raises `KeyError` (here `none`) outside 1..12. -/
def seasonOf : ℕ → Option ℚ
  | 12 => some 0
  | 1 => some 0
  | 2 => some 0
  | 3 => some 1
  | 4 => some 1
  | 5 => some 1
  | 6 => some 2
  | 7 => some 2
  | 8 => some 2
  | 9 => some 3
  | 10 => some 3
  | 11 => some 3
  | _ => none

def dayNames : List Str :=
  [strL "Monday", strL "Tuesday", strL "Wednesday", strL "Thursday", strL "Friday",
   strL "Saturday", strL "Sunday"]

/-- Python `str.isdigit()` (ASCII digits). -/
def isDigits (s : Str) : Bool := !s.isEmpty && s.all Char.isDigit

/-- `float(route)` for a digit string. -/
def digitsVal (s : Str) : ℚ :=
  (s.foldl (fun acc c => 10 * acc + c.toNat - '0'.toNat) 0 : ℕ)

/-- Insertion sort on rationals (used for the pandas `median`). -/
def insSorted (x : ℚ) : List ℚ → List ℚ
  | [] => [x]
  | y :: t => if x ≤ y then x :: y :: t else y :: insSorted x t

def sortQ (l : List ℚ) : List ℚ := l.foldr insSorted []

/-- pandas `Series.median`: middle of the sorted values, or the mean of the
two middle values (`0` for the empty series, where pandas yields NaN; no call
site's proved property depends on that value). -/
def medianQ (l : List ℚ) : ℚ :=
  let s := sortQ l
  let n := s.length
  if n = 0 then 0
  else if n % 2 = 1 then s.getD (n / 2) 0
  else (s.getD (n / 2 - 1) 0 + s.getD (n / 2) 0) / 2

/-- Insertion sort on strings by code point (Python `sorted`). -/
def insStr (x : Str) : List Str → List Str
  | [] => [x]
  | y :: t => if lexLe x y then x :: y :: t else y :: insStr x t

def sortStr (l : List Str) : List Str := l.foldr insStr []

/-- `self.incident_types = sorted(historical_data['incident'].unique())`; the
attribute does not exist when no historical data was loaded. -/
def incidentTypesOf (P : Predictor) : Option (List Str) :=
  P.hist.map (fun rows => sortStr (rows.map (fun r => r.incident)).dedup)

/-- `route_freq.get(route, route_freq.median())` over
`historical_data['route'].value_counts()`, or the constant `100` without
historical data. -/
def routeFreqVal (P : Predictor) (route : Str) : ℚ :=
  match P.hist with
  | none => 100
  | some rows =>
      if rows.any (fun r => r.route = route) then
        ((rows.filter (fun r => r.route = route)).length : ℚ)
      else
        medianQ (((rows.map (fun r => r.route)).dedup).map
          (fun rt => ((rows.filter (fun r => r.route = rt)).length : ℚ)))

/-- The literal `incident_estimates` dict of the no-historical-data branch. -/
def incidentEstimates : List (Str × ℚ) :=
  [(strL "Mechanical", 20), (strL "Collision - TTC", 30), (strL "Emergency Services", 15),
   (strL "Operations - Operator", 10), (strL "Diversion", 25), (strL "Investigation", 18)]

/-- `incident_avg.get(incident_type, incident_avg.mean())` over
`historical_data.groupby('incident')['min_delay'].mean()`, or the estimate
dict with default 15. -/
def incidentAvgVal (P : Predictor) (incident : Str) : ℚ :=
  match P.hist with
  | none => (dget incident incidentEstimates).getD 15
  | some rows =>
      let g := rows.filter (fun r => r.incident = incident)
      if g.isEmpty then
        avgQ (((rows.map (fun r => r.incident)).dedup).map
          (fun i => avgQ ((rows.filter (fun r => r.incident = i)).map (fun r => r.delay))))
      else avgQ (g.map (fun r => r.delay))

/-- The historical rows within the ±0.01-degree window of the request. -/
def nearbyRows (rows : List HistRow) (lat lon : ℚ) : List HistRow :=
  rows.filter (fun r => |r.lat - lat| < 1/100 && |r.lon - lon| < 1/100)

def spatialCellAvg (P : Predictor) (lat lon : ℚ) : ℚ :=
  match P.hist with
  | none => 15
  | some rows =>
      let nb := nearbyRows rows lat lon
      if nb.isEmpty then avgQ (rows.map (fun r => r.delay))
      else avgQ (nb.map (fun r => r.delay))

def locationFreq (P : Predictor) (lat lon : ℚ) : ℚ :=
  match P.hist with
  | none => 10
  | some rows =>
      if (nearbyRows rows lat lon).isEmpty then 10
      else ((nearbyRows rows lat lon).length : ℚ)

/-- Steps 1–4 (up to `incident_avg_delay`) of `_engineer_prediction_features`:
the feature dict in insertion order (all keys of this prefix are distinct, so
the dict is the literal list).  `none` models the `KeyError` of the season map
for an out-of-range month. -/
def baseFeatures (P : Predictor) (dt : DT) (lat lon : ℚ) (route incident : Str) :
    Option (List (Str × ℚ)) :=
  (seasonOf dt.month).map (fun season =>
    [(strL "year", (dt.year : ℚ)),
     (strL "month", (dt.month : ℚ)),
     (strL "day_of_month", (dt.day : ℚ)),
     (strL "day_of_week", (dt.weekday : ℚ)),
     (strL "hour", (dt.hour : ℚ)),
     (strL "minute", (dt.minute : ℚ)),
     (strL "day_of_year", (dt.yday : ℚ)),
     (strL "week_of_year", (dt.isoweek : ℚ)),
     (strL "quarter", (((dt.month - 1) / 3 + 1 : ℕ) : ℚ)),
     (strL "hour_sin", P.sin2pi ((dt.hour : ℚ) / 24)),
     (strL "hour_cos", P.cos2pi ((dt.hour : ℚ) / 24)),
     (strL "month_sin", P.sin2pi ((dt.month : ℚ) / 12)),
     (strL "month_cos", P.cos2pi ((dt.month : ℚ) / 12)),
     (strL "day_of_week_sin", P.sin2pi ((dt.weekday : ℚ) / 7)),
     (strL "day_of_week_cos", P.cos2pi ((dt.weekday : ℚ) / 7)),
     (strL "is_weekend", if 5 ≤ dt.weekday then 1 else 0),
     (strL "is_rush_hour_am", if 7 ≤ dt.hour ∧ dt.hour < 10 then 1 else 0),
     (strL "is_rush_hour_pm", if 16 ≤ dt.hour ∧ dt.hour < 19 then 1 else 0),
     (strL "is_rush_hour",
       if (7 ≤ dt.hour ∧ dt.hour < 10) ∨ (16 ≤ dt.hour ∧ dt.hour < 19) then 1 else 0),
     (strL "is_night", if 22 ≤ dt.hour ∨ dt.hour < 6 then 1 else 0),
     (strL "is_weekday", if dt.weekday < 5 then 1 else 0),
     (strL "season", season),
     (strL "latitude", lat),
     (strL "longitude", lon),
     (strL "dist_from_center",
       P.sqrtQ ((lat - 436532/10000) ^ 2 + (lon - (-793832/10000)) ^ 2)),
     (strL "route_numeric", if isDigits route then digitsVal route else -1),
     (strL "route_is_numeric", if isDigits route then 1 else 0),
     (strL "route_frequency", routeFreqVal P route),
     (strL "incident_avg_delay", incidentAvgVal P incident)])

/-- `col.replace('incident_', '')` (all occurrences). -/
def replIncident : Str → Str
  | [] => []
  | 'i' :: 'n' :: 'c' :: 'i' :: 'd' :: 'e' :: 'n' :: 't' :: '_' :: rest => replIncident rest
  | c :: rest => c :: replIncident rest

/-- `col.replace('dir_', '')`. -/
def replDir : Str → Str
  | [] => []
  | 'd' :: 'i' :: 'r' :: '_' :: rest => replDir rest
  | c :: rest => c :: replDir rest

/-- `col.replace('day_', '')`. -/
def replDay : Str → Str
  | [] => []
  | 'd' :: 'a' :: 'y' :: '_' :: rest => replDay rest
  | c :: rest => c :: replDay rest

/-- The one-hot value for an `incident_`-prefixed column.  `none` models the
`AttributeError` on `self.incident_types` when it was never set (no historical
data) — Python's `or`/`and` short-circuiting reaches the attribute only for
the `Other` column with a non-matching incident type. -/
def incFlagVal (P : Predictor) (incident name : Str) : Option ℚ :=
  if incident = name then some 1
  else if name = strL "Other" then
    match incidentTypesOf P with
    | none => none
    | some its => some (if incident ∈ its then 0 else 1)
  else some 0

/-- One of the three `for col in self.feature_columns` one-hot loops:
overwrite `features[col]` for every column with the given prefix (a left fold
over the schema columns, `none` when a value computation raises). -/
def loopPre (pre : Str) (valOf : Str → Option ℚ) (repf : Str → Str) :
    List Str → List (Str × ℚ) → Option (List (Str × ℚ))
  | [], d => some d
  | col :: cs, d =>
      if pre.isPrefixOf col then
        match valOf (repf col) with
        | some v => loopPre pre valOf repf cs (dinsert col v d)
        | none => none
      else loopPre pre valOf repf cs d

/-- The fill loop: `features[col] = 0` for every schema column still absent. -/
def fillMissing : List Str → List (Str × ℚ) → List (Str × ℚ)
  | [], d => d
  | col :: cs, d => fillMissing cs (if (dget col d).isSome then d else dinsert col 0 d)

/-- The complete feature dict built by `_engineer_prediction_features`
(steps 1–7 plus the fill loop). -/
def engineerDict (P : Predictor) (dt : DT) (lat lon : ℚ) (route incident dir : Str) :
    Option (List (Str × ℚ)) := do
  let base ← baseFeatures P dt lat lon route incident
  let d4 ← loopPre (strL "incident_") (incFlagVal P incident) replIncident P.featureCols base
  let d5 ← loopPre (strL "dir_") (fun n => some (if dir = n then 1 else 0)) replDir
    P.featureCols d4
  let dayName ← dayNames[dt.weekday]?
  let d6 ← loopPre (strL "day_") (fun n => some (if dayName = n then 1 else 0)) replDay
    P.featureCols d5
  let d7 := dinsert (strL "spatial_cell_avg_delay") (spatialCellAvg P lat lon) d6
  let d8 := dinsert (strL "location_frequency") (locationFreq P lat lon) d7
  pure (fillMissing P.featureCols d8)

/-- The comprehension `[features[col] for col in self.feature_columns]`
paired with the column names; `none` models a `KeyError`. -/
def lookupCols (filled : List (Str × ℚ)) : List Str → Option (List (Str × ℚ))
  | [] => some []
  | c :: cs =>
      match dget c filled, lookupCols filled cs with
      | some v, some fv => some ((c, v) :: fv)
      | _, _ => none

/-- The returned feature vector, keyed by schema column.  `none` models any
raised exception of `_engineer_prediction_features`. -/
def reconstruct (P : Predictor) (dt : DT) (lat lon : ℚ) (route incident dir : Str) :
    Option (List (Str × ℚ)) := do
  let filled ← engineerDict P dt lat lon route incident dir
  lookupCols filled P.featureCols

/-- The value list actually passed to the model. -/
def featureValues (P : Predictor) (dt : DT) (lat lon : ℚ) (route incident dir : Str) :
    Option (List ℚ) :=
  (reconstruct P dt lat lon route incident dir).map (fun l => l.map Prod.snd)

/-- `predict_delay`: run the model on the engineered features and clamp the
result at zero (`max(0, prediction)`). -/
def predictDelay (P : Predictor) (dt : DT) (lat lon : ℚ) (route incident dir : Str) :
    Option ℚ :=
  (featureValues P dt lat lon route incident dir).map (fun v => max 0 (P.model v))

def testCols : List Str :=
  [strL "hour", strL "incident_Other", strL "incident_Mechanical", strL "incident_avg_delay",
   strL "dir_NORTH", strL "day_of_week", strL "day_Monday", strL "route_frequency",
   strL "mystery_col", strL "latitude", strL "spatial_cell_avg_delay", strL "is_rush_hour"]

def testHist : List HistRow :=
  [⟨strL "36", strL "Mechanical", 1, 1, 10⟩,
   ⟨strL "7B", strL "Mechanical", 1, 1, 30⟩,
   ⟨strL "36", strL "Diversion", 2, 2, 20⟩]

def testP : Predictor :=
  ⟨testCols, some testHist, fun _ => 0, fun _ => 0, fun x => x, fun _ => -3⟩

/-! ## A normal form on which the normalizer is the identity -/

/-- Characters that every normalizer stage maps to themselves: lower-case word
characters and the plain space. -/
def goodChar (c : Char) : Bool := (isWordChar c && !c.isUpper) || c = ' '

def headNotSpc : Str → Bool
  | [] => true
  | c :: _ => !isSpc c

/-- Scan mirroring `subStatioA`: `true` when no standalone `statio` occurrence
exists (so that substitution never fires). -/
def noStatioHit : Bool → Str → Bool
  | _, [] => true
  | prevW, 's' :: 't' :: 'a' :: 't' :: 'i' :: 'o' :: rest =>
      if !prevW && boundaryOk rest then false
      else noStatioHit true ('t' :: 'a' :: 't' :: 'i' :: 'o' :: rest)
  | _, c :: rest => noStatioHit (isWordChar c) rest

/-- Scan mirroring `subStaA`. -/
def noStaHit : Bool → Str → Bool
  | _, [] => true
  | prevW, 's' :: 't' :: 'a' :: rest =>
      if !prevW && boundaryOk rest then false else noStaHit true ('t' :: 'a' :: rest)
  | _, c :: rest => noStaHit (isWordChar c) rest

/-- Scan mirroring `subStnA`. -/
def noStnHit : Bool → Str → Bool
  | _, [] => true
  | prevW, 's' :: 't' :: 'n' :: rest =>
      if !prevW && boundaryOk rest then false else noStnHit true ('t' :: 'n' :: rest)
  | _, c :: rest => noStnHit (isWordChar c) rest

/-- Strings on which every stage of `cleanL` is the identity: lower-case word
characters separated by single spaces, trimmed, with no standalone
`statio`/`sta`/`stn` token and no space-delimited `and`. -/
def Good (t : Str) : Bool :=
  t.all goodChar && !hasSub [' ', ' '] t && headNotSpc t && headNotSpc t.reverse &&
  noStatioHit false t && noStaHit false t && noStnHit false t && !hasSub (strL " and ") t

/-- Characters every pre-punctuation stage maps to themselves: a good
character or a dot (the dot survives until `subPunct` turns it into a
space). -/
def okChar (c : Char) : Bool := goodChar c || c = '.'

/-- Every `.` is followed by a word boundary (end of string or a non-word
character), so no dotted street-abbreviation alternative can match. -/
def dotsSafe : Str → Bool
  | [] => true
  | '.' :: rest => boundaryOk rest && dotsSafe rest
  | _ :: rest => dotsSafe rest

/-- Context in which a single word-boundary dot sits: a nonempty clean prefix
`p` (not ending in a space), a clean suffix `v` that is empty or starts with
one space, and no station-variant or connector occurrence anywhere in
`p ++ '.' :: v`. -/
def DotCtx (p v : Str) : Bool :=
  !p.isEmpty && p.all goodChar && headNotSpc p && !hasSub [' ', ' '] (p ++ [' ']) &&
  v.all goodChar && (v.isEmpty || v.head? == some ' ') &&
  headNotSpc (p ++ '.' :: v).reverse &&
  !hasSub [' ', ' '] (p ++ '.' :: v) && !hasSub (strL " and ") (p ++ '.' :: v) &&
  noStatioHit false (p ++ '.' :: v) && noStaHit false (p ++ '.' :: v) &&
  noStnHit false (p ++ '.' :: v)

/-- Context for `sta` → `station` expansion: `sta` is a standalone token of a
clean string, the scan hits nothing before or after it, and the expanded
string is in normal form. -/
def staCtx (u v : Str) : Bool :=
  headNotSpc (u ++ strL "sta" ++ v) && headNotSpc (u ++ strL "sta" ++ v).reverse &&
  (u ++ strL "sta" ++ v).all goodChar &&
  (u.isEmpty || u.getLast? == some ' ') && boundaryOk v &&
  noStaHit false u && noStaHit true v &&
  noStatioHit false (u ++ strL "sta" ++ v) &&
  Good (u ++ stationW ++ v)

/-- Context for `stn` → `station` expansion. -/
def stnCtx (u v : Str) : Bool :=
  headNotSpc (u ++ strL "stn" ++ v) && headNotSpc (u ++ strL "stn" ++ v).reverse &&
  (u ++ strL "stn" ++ v).all goodChar &&
  (u.isEmpty || u.getLast? == some ' ') && boundaryOk v &&
  noStnHit false u && noStnHit true v &&
  noStatioHit false (u ++ strL "stn" ++ v) && noStaHit false (u ++ strL "stn" ++ v) &&
  Good (u ++ stationW ++ v)

/-- Context for `statio` → `station` expansion. -/
def statioCtx (u v : Str) : Bool :=
  headNotSpc (u ++ strL "statio" ++ v) && headNotSpc (u ++ strL "statio" ++ v).reverse &&
  (u ++ strL "statio" ++ v).all goodChar &&
  (u.isEmpty || u.getLast? == some ' ') && boundaryOk v &&
  noStatioHit false u && noStatioHit true v &&
  Good (u ++ stationW ++ v)

/-! ## Validation of the embedding on concrete inputs -/

example : cleanL (strL "Bathurst  and Wilson") = strL "bathurst at wilson" := by decide

example : cleanL (strL " \"PIONEER VILLAGE STATIO\" ") = strL "pioneer village station" := by
  decide

example : cleanL (strL "KENNEDY STN") = strL "kennedy station" := by decide

example : cleanL (strL "Main St. Station") = strL "main st station" := by decide

example : cleanL (strL "ave.") = strL "ave" := by decide

example : cleanL (strL "x.and.y") = strL "x and y" := by decide

example : cleanL (strL "x and y") = strL "x at y" := by decide

example : cleanL (strL "a and and b") = strL "a at and b" := by decide

example : cleanL (strL "a at and b") = strL "a at and b" := by decide

example : cleanL (strL "st.a x") = strL "sta x" := by decide

example : cleanL (strL "???") = strL "" := by decide

example : cleanL (strL "st.n") = strL "stn" := by decide

example : cleanL (strL "ave.x") = strL "avex" := by decide

example : cleanL (strL "west side of king station") = strL "west side of king station" := by
  decide

example : cleanL (strL "x  at  y") = strL "x at y" := by decide

example : cleanL (strL "x & y") = strL "x at y" := by decide

example : cleanL (strL "x&y") = strL "x y" := by decide

example : cleanL (strL "and x") = strL "and x" := by decide

example : cleanL (strL "a and and and b") = strL "a at and at b" := by decide

example : cleanL (strL "st. x") = strL "st x" := by decide

example : cleanL (strL "sta.tion") = strL "station tion" := by decide

example : cleanL (strL "x(and)y") = strL "x and y" := by decide

example : cleanL (strL "  at x") = strL "at x" := by decide

example : cleanL (strL "x at ") = strL "x at" := by decide

example : cleanL (strL "main st station") = strL "main st station" := by decide

example : tokensOf (strL "  west side  of king ") = [strL "west", strL "side", strL "of",
    strL "king"] := by decide

example : splitAtSep (strL "bathurst at wilson") = [strL "bathurst", strL "wilson"] := by decide

example : splitAtSep (strL "a at b at c") = [strL "a", strL "b", strL "c"] := by decide

example : hasSub (strL "station") (strL "x stationy") = true := by decide

example :
    resolveRaw [⟨strL "Kennedy Station", 437325/10000, -792631/10000⟩] (some (strL "KENNEDY STN"))
      = (some (avgPair [(437325/10000, -792631/10000)]), Strat.exact) := rfl

example :
    resolveRaw [⟨strL "west side of king station", 1, 1⟩] (some (strL "king station"))
      = (none, Strat.failed) := rfl

example :
    resolveRaw [⟨strL "west side of king station", 1, 1⟩] (some (strL "side of king station"))
      = (some (avgPair [(1, 1)]), Strat.station) := rfl

example :
    stationLookup [⟨strL "west side of king station", 1, 1⟩] (strL "king station") = none := by
  decide

example :
    resolveRaw [⟨strL "bathurst at wilson", 1, 1⟩, ⟨strL "wilson st at bathurst ave", 3, 3⟩]
      (some (strL "Bathurst and Wilson")) = (some (avgPair [(1, 1)]), Strat.exact) := rfl

example :
    resolveRaw [⟨strL "bathurst at wilson", 1, 1⟩, ⟨strL "wilson st at bathurst ave", 3, 3⟩]
      (some (strL "Wilson and Bathurst"))
      = (some (avgPair [(1, 1), (3, 3)]), Strat.intersection) := rfl

example :
    resolveRaw [⟨strL "Main St Station", 0, 0⟩, ⟨strL "Main St. Station", 2, 2⟩]
      (some (strL "main st station")) = (some (avgPair [(0, 0), (2, 2)]), Strat.exact) := rfl

example :
    resolveRaw [⟨strL "Kennedy Station", 437325/10000, -792631/10000⟩]
      (some (strL "KENNEDY STATION north side"))
      = (some (avgPair [(437325/10000, -792631/10000)]), Strat.station) := rfl

example : resolveRaw [⟨strL "Kennedy Station", 1, 2⟩] (some (strL "")) = (none, Strat.failed) :=
  rfl

example : resolveRaw [⟨strL "Kennedy Station", 1, 2⟩] none = (none, Strat.failed) := rfl

example : avgPair [(0, 0), (2, 2)] = (1, 1) := by norm_num [avgPair, avgQ]

example :
    reconstruct testP ⟨2024, 12, 16, 0, 17, 30, 351, 51⟩ 1 1 (strL "36")
      (strL "QuantumGlitch") (strL "NORTH")
    = some
      [(strL "hour", 17), (strL "incident_Other", 1), (strL "incident_Mechanical", 0),
       (strL "incident_avg_delay", 0), (strL "dir_NORTH", 1), (strL "day_of_week", 0),
       (strL "day_Monday", 1), (strL "route_frequency", 2), (strL "mystery_col", 0),
       (strL "latitude", 1), (strL "spatial_cell_avg_delay", 20), (strL "is_rush_hour", 1)] := by
  with_unfolding_all rfl

example :
    reconstruct testP ⟨2024, 12, 16, 0, 17, 30, 351, 51⟩ 5 5 (strL "X9")
      (strL "Mechanical") (strL "SOUTH")
    = some
      [(strL "hour", 17), (strL "incident_Other", 0), (strL "incident_Mechanical", 1),
       (strL "incident_avg_delay", 0), (strL "dir_NORTH", 0), (strL "day_of_week", 0),
       (strL "day_Monday", 1), (strL "route_frequency", 3/2), (strL "mystery_col", 0),
       (strL "latitude", 5), (strL "spatial_cell_avg_delay", 20), (strL "is_rush_hour", 1)] := by
  with_unfolding_all rfl

example :
    reconstruct testP ⟨2024, 12, 18, 2, 17, 30, 353, 51⟩ 1 1 (strL "36")
      (strL "QuantumGlitch") (strL "NORTH")
    = some
      [(strL "hour", 17), (strL "incident_Other", 1), (strL "incident_Mechanical", 0),
       (strL "incident_avg_delay", 0), (strL "dir_NORTH", 1), (strL "day_of_week", 0),
       (strL "day_Monday", 0), (strL "route_frequency", 2), (strL "mystery_col", 0),
       (strL "latitude", 1), (strL "spatial_cell_avg_delay", 20), (strL "is_rush_hour", 1)] := by
  with_unfolding_all rfl

example :
    reconstruct testP ⟨2024, 0, 18, 2, 17, 30, 353, 51⟩ 1 1 (strL "36")
      (strL "QuantumGlitch") (strL "NORTH") = none := by with_unfolding_all rfl

example :
    reconstruct { testP with hist := none } ⟨2024, 12, 18, 2, 17, 30, 353, 51⟩ 1 1 (strL "36")
      (strL "QuantumGlitch") (strL "NORTH") = none := by with_unfolding_all rfl

example :
    predictDelay testP ⟨2024, 12, 16, 0, 17, 30, 351, 51⟩ 1 1 (strL "36")
      (strL "QuantumGlitch") (strL "NORTH") = some 0 := by with_unfolding_all rfl

example : Good (strL "king station") = true := by decide

example : Good (strL "bathurst at wilson") = true := by decide

example : Good (strL "a at and b") = false := by decide

example : Good (strL "x and y") = false := by decide

example : Good (strL "sta x") = false := by decide

/-! ## Dictionary and loop lemmas -/

theorem dget_dinsert_self (k : Str) (v : ℚ) (d : List (Str × ℚ)) :
    dget k (dinsert k v d) = some v := by
  induction d with
  | nil => simp [dinsert, dget]
  | cons p t ih =>
    obtain ⟨k', v'⟩ := p
    by_cases h : k' = k
    · simp [dinsert, dget, h]
    · simp [dinsert, dget, h, ih]

theorem dget_dinsert_ne (k k' : Str) (v : ℚ) (d : List (Str × ℚ)) (h : k' ≠ k) :
    dget k' (dinsert k v d) = dget k' d := by
  have hk : ¬(k = k') := fun he => h he.symm
  induction d with
  | nil => simp [dinsert, dget, hk]
  | cons p t ih =>
    obtain ⟨a, b⟩ := p
    by_cases ha : a = k
    · subst ha
      simp [dinsert, dget, hk]
    · by_cases hc : a = k'
      · simp [dinsert, dget, ha, hc, hk, h]
      · simp [dinsert, dget, ha, hc, ih]

theorem dget_fill_preserved (c : Str) (cols : List Str) :
    ∀ d : List (Str × ℚ), (dget c d).isSome →
      dget c (fillMissing cols d) = dget c d := by
  induction cols with
  | nil => intro d _; rfl
  | cons col cs ih =>
    intro d h
    rw [fillMissing]
    by_cases hcol : (dget col d).isSome
    · rw [if_pos hcol]; exact ih d h
    · rw [if_neg hcol]
      by_cases hc : c = col
      · subst hc; simp [h] at hcol
      · rw [ih (dinsert col 0 d) (by rwa [dget_dinsert_ne _ _ _ _ hc]),
          dget_dinsert_ne _ _ _ _ hc]

theorem dget_fill_isSome (c : Str) (cols : List Str) :
    ∀ d : List (Str × ℚ), c ∈ cols → (dget c (fillMissing cols d)).isSome := by
  induction cols with
  | nil => intro d h; cases h
  | cons col cs ih =>
    intro d h
    rw [fillMissing]
    rcases List.mem_cons.mp h with hc | hc
    · subst hc
      by_cases hs : (dget c d).isSome
      · rw [if_pos hs, dget_fill_preserved _ _ _ hs]; exact hs
      · rw [if_neg hs, dget_fill_preserved _ _ _ (by simp [dget_dinsert_self]),
          dget_dinsert_self]
        rfl
    · exact ih _ hc

theorem lookupCols_keys_some (filled : List (Str × ℚ)) :
    ∀ cols : List Str, (∀ c ∈ cols, (dget c filled).isSome) →
      ∃ fv, lookupCols filled cols = some fv ∧ fv.map Prod.fst = cols := by
  intro cols
  induction cols with
  | nil => intro _; exact ⟨[], rfl, rfl⟩
  | cons c cs ih =>
    intro h
    obtain ⟨v, hv⟩ := Option.isSome_iff_exists.mp (h c (List.mem_cons_self c cs))
    obtain ⟨fv', hfv', hkeys⟩ := ih (fun x hx => h x (List.mem_cons_of_mem _ hx))
    exact ⟨(c, v) :: fv', by rw [lookupCols, hv, hfv'], by simp [hkeys]⟩

theorem dget_lookupCols (filled : List (Str × ℚ)) (c : Str) :
    ∀ (cols : List Str) (fv : List (Str × ℚ)),
      lookupCols filled cols = some fv → c ∈ cols → dget c fv = dget c filled := by
  intro cols
  induction cols with
  | nil => intro fv _ h; cases h
  | cons col cs ih =>
    intro fv hm hmem
    rw [lookupCols] at hm
    obtain ⟨v, hv⟩ : ∃ v, dget col filled = some v := by
      cases hd : dget col filled with
      | none => rw [hd] at hm; simp at hm
      | some v => exact ⟨v, rfl⟩
    obtain ⟨fv', hfv'⟩ : ∃ fv', lookupCols filled cs = some fv' := by
      cases hr : lookupCols filled cs with
      | none => rw [hr, hv] at hm; simp at hm
      | some l => exact ⟨l, rfl⟩
    rw [hv, hfv'] at hm
    simp only [Option.some_inj] at hm
    subst hm
    by_cases hc : col = c
    · subst hc; simp [dget, hv]
    · rcases List.mem_cons.mp hmem with h | h
      · exact absurd h.symm hc
      · simp only [dget, if_neg hc]
        exact ih fv' hfv' h

theorem loopPre_isSome (pre : Str) (valOf : Str → Option ℚ) (repf : Str → Str)
    (cols : List Str) (h : ∀ c ∈ cols, pre.isPrefixOf c = true → (valOf (repf c)).isSome) :
    ∀ d, (loopPre pre valOf repf cols d).isSome := by
  induction cols with
  | nil => intro d; rfl
  | cons col cs ih =>
    intro d
    rw [loopPre]
    by_cases hp : pre.isPrefixOf col = true
    · obtain ⟨v, hv⟩ := Option.isSome_iff_exists.mp
        (h col (List.mem_cons_self col cs) hp)
      rw [if_pos hp, hv]
      exact ih (fun c hc hpc => h c (List.mem_cons_of_mem _ hc) hpc) _
    · rw [if_neg hp]
      exact ih (fun c hc hpc => h c (List.mem_cons_of_mem _ hc) hpc) _

theorem loopPre_dget_notpre (pre : Str) (valOf : Str → Option ℚ) (repf : Str → Str)
    (c : Str) (hc : pre.isPrefixOf c = false) :
    ∀ (cols : List Str) (d d' : List (Str × ℚ)),
      loopPre pre valOf repf cols d = some d' → dget c d' = dget c d := by
  intro cols
  induction cols with
  | nil => intro d d' h; cases h; rfl
  | cons col cs ih =>
    intro d d' h
    rw [loopPre] at h
    by_cases hp : pre.isPrefixOf col = true
    · rw [if_pos hp] at h
      obtain ⟨v, hv⟩ : ∃ v, valOf (repf col) = some v := by
        cases hval : valOf (repf col) with
        | none => rw [hval] at h; simp at h
        | some v => exact ⟨v, rfl⟩
      rw [hv] at h
      rw [ih _ _ h, dget_dinsert_ne _ _ _ _
        (fun he => by rw [he] at hc; rw [hc] at hp; cases hp)]
    · rw [if_neg hp] at h
      exact ih _ _ h

theorem loopPre_dget_stable (pre : Str) (valOf : Str → Option ℚ) (repf : Str → Str)
    (c : Str) (v : ℚ) (hpre : pre.isPrefixOf c = true → valOf (repf c) = some v) :
    ∀ (cols : List Str) (d d' : List (Str × ℚ)),
      loopPre pre valOf repf cols d = some d' → dget c d = some v → dget c d' = some v := by
  intro cols
  induction cols with
  | nil => intro d d' h hd; cases h; exact hd
  | cons col cs ih =>
    intro d d' h hd
    rw [loopPre] at h
    by_cases hp : pre.isPrefixOf col = true
    · rw [if_pos hp] at h
      obtain ⟨w, hw⟩ : ∃ w, valOf (repf col) = some w := by
        cases hval : valOf (repf col) with
        | none => rw [hval] at h; simp at h
        | some w => exact ⟨w, rfl⟩
      rw [hw] at h
      by_cases hcc : col = c
      · subst hcc
        have hwv : w = v := by
          have hv := hpre hp
          rw [hv] at hw
          exact (Option.some_inj.mp hw).symm
        subst hwv
        exact ih _ _ h (dget_dinsert_self _ _ _)
      · exact ih _ _ h (by rw [dget_dinsert_ne _ _ _ _ (fun he => hcc he.symm)]; exact hd)
    · rw [if_neg hp] at h
      exact ih _ _ h hd

theorem loopPre_dget_mem (pre : Str) (valOf : Str → Option ℚ) (repf : Str → Str)
    (c : Str) (hp : pre.isPrefixOf c = true) :
    ∀ (cols : List Str) (d d' : List (Str × ℚ)),
      loopPre pre valOf repf cols d = some d' → c ∈ cols →
      ∃ v, valOf (repf c) = some v ∧ dget c d' = some v := by
  intro cols
  induction cols with
  | nil => intro d d' _ hmem; cases hmem
  | cons col cs ih =>
    intro d d' h hmem
    rw [loopPre] at h
    by_cases hpc : pre.isPrefixOf col = true
    · rw [if_pos hpc] at h
      obtain ⟨w, hw⟩ : ∃ w, valOf (repf col) = some w := by
        cases hval : valOf (repf col) with
        | none => rw [hval] at h; simp at h
        | some w => exact ⟨w, rfl⟩
      rw [hw] at h
      by_cases hcc : col = c
      · subst hcc
        refine ⟨w, hw, ?_⟩
        exact loopPre_dget_stable pre valOf repf col w (fun _ => hw) cs _ _ h
          (dget_dinsert_self _ _ _)
      · rcases List.mem_cons.mp hmem with he | he
        · exact absurd he.symm hcc
        · exact ih _ _ h he
    · rcases List.mem_cons.mp hmem with he | he
      · rw [← he] at hpc; exact absurd hp hpc
      · rw [if_neg hpc] at h
        exact ih _ _ h he

theorem seasonOf_isSome (m : ℕ) (h1 : 1 ≤ m) (h2 : m ≤ 12) : (seasonOf m).isSome := by
  interval_cases m <;> rfl

theorem dayNames_get_isSome (w : ℕ) (h : w < 7) : dayNames[w]?.isSome := by
  interval_cases w <;> rfl

theorem incFlagVal_isSome (P : Predictor) (incident name : Str) (hh : P.hist.isSome) :
    (incFlagVal P incident name).isSome := by
  obtain ⟨rows, hrows⟩ := Option.isSome_iff_exists.mp hh
  unfold incFlagVal
  by_cases h1 : incident = name
  · simp [h1]
  · by_cases h2 : name = strL "Other"
    · simp only [h1, h2, if_false, if_true, incidentTypesOf, hrows, Option.map_some]
      split <;> rfl
    · simp [h1, h2]

theorem isPrefixOf_cons_ex {a : Char} {p s : Str} (h : (a :: p).isPrefixOf s = true) :
    ∃ t, s = a :: t := by
  cases s with
  | nil => simp [List.isPrefixOf] at h
  | cons b bs =>
    simp only [List.isPrefixOf, Bool.and_eq_true, beq_iff_eq] at h
    exact ⟨bs, by rw [h.1]⟩

theorem inc_head (c : Str) (h : (strL "incident_").isPrefixOf c = true) :
    ∃ t, c = 'i' :: t := by
  have h' : ('i' :: strL "ncident_").isPrefixOf c = true := h
  exact isPrefixOf_cons_ex h'

theorem inc_not_dir (c : Str) (h : (strL "incident_").isPrefixOf c = true) :
    (strL "dir_").isPrefixOf c = false := by
  obtain ⟨t, rfl⟩ := inc_head c h
  show ('d' :: strL "ir_").isPrefixOf ('i' :: t) = false
  simp [List.isPrefixOf]

theorem inc_not_day (c : Str) (h : (strL "incident_").isPrefixOf c = true) :
    (strL "day_").isPrefixOf c = false := by
  obtain ⟨t, rfl⟩ := inc_head c h
  show ('d' :: strL "ay_").isPrefixOf ('i' :: t) = false
  simp [List.isPrefixOf]

/-- The feature dict succeeds whenever historical data is loaded and the
datetime is well formed; it then has a value for every schema column, and
every `incident_`-prefixed schema column carries its one-hot flag value. -/
theorem engineerDict_spec (P : Predictor) (dt : DT) (lat lon : ℚ)
    (route incident dir : Str) (hh : P.hist.isSome) (hdt : validDT dt) :
    ∃ filled, engineerDict P dt lat lon route incident dir = some filled ∧
      (∀ c ∈ P.featureCols, (dget c filled).isSome) ∧
      (∀ c ∈ P.featureCols, (strL "incident_").isPrefixOf c = true →
        dget c filled = incFlagVal P incident (replIncident c)) := by
  obtain ⟨hm1, hm2, hw⟩ := hdt
  obtain ⟨sv, hsv⟩ := Option.isSome_iff_exists.mp (seasonOf_isSome dt.month hm1 hm2)
  obtain ⟨base, hbase⟩ : ∃ b, baseFeatures P dt lat lon route incident = some b := by
    refine Option.isSome_iff_exists.mp ?_
    unfold baseFeatures
    rw [hsv]
    rfl
  obtain ⟨d4, h4⟩ := Option.isSome_iff_exists.mp
    (loopPre_isSome (strL "incident_") (incFlagVal P incident) replIncident P.featureCols
      (fun c _ _ => incFlagVal_isSome P incident (replIncident c) hh) base)
  obtain ⟨d5, h5⟩ := Option.isSome_iff_exists.mp
    (loopPre_isSome (strL "dir_") (fun n => some (if dir = n then 1 else 0)) replDir
      P.featureCols (fun _ _ _ => rfl) d4)
  obtain ⟨dn, hdn⟩ := Option.isSome_iff_exists.mp (dayNames_get_isSome dt.weekday hw)
  obtain ⟨d6, h6⟩ := Option.isSome_iff_exists.mp
    (loopPre_isSome (strL "day_") (fun n => some (if dn = n then 1 else 0)) replDay
      P.featureCols (fun _ _ _ => rfl) d5)
  refine ⟨fillMissing P.featureCols
    (dinsert (strL "location_frequency") (locationFreq P lat lon)
      (dinsert (strL "spatial_cell_avg_delay") (spatialCellAvg P lat lon) d6)), ?_, ?_, ?_⟩
  · simp [engineerDict, hbase, h4, h5, hdn, h6]
  · intro c hc
    exact dget_fill_isSome c P.featureCols _ hc
  · intro c hc hpre
    obtain ⟨v, hv, hd4⟩ := loopPre_dget_mem (strL "incident_") (incFlagVal P incident)
      replIncident c hpre P.featureCols base d4 h4 hc
    have hd5 : dget c d5 = some v := by
      rw [loopPre_dget_notpre (strL "dir_") _ replDir c (inc_not_dir c hpre) _ _ _ h5]
      exact hd4
    have hd6 : dget c d6 = some v := by
      rw [loopPre_dget_notpre (strL "day_") _ replDay c (inc_not_day c hpre) _ _ _ h6]
      exact hd5
    obtain ⟨t, rfl⟩ := inc_head c hpre
    have hne1 : ('i' :: t) ≠ strL "spatial_cell_avg_delay" := by
      intro he
      exact absurd (List.head_eq_of_cons_eq he) (by decide)
    have hne2 : ('i' :: t) ≠ strL "location_frequency" := by
      intro he
      exact absurd (List.head_eq_of_cons_eq he) (by decide)
    have hd8 : dget ('i' :: t)
        (dinsert (strL "location_frequency") (locationFreq P lat lon)
          (dinsert (strL "spatial_cell_avg_delay") (spatialCellAvg P lat lon) d6))
        = some v := by
      rw [dget_dinsert_ne _ _ _ _ hne2, dget_dinsert_ne _ _ _ _ hne1]
      exact hd6
    rw [dget_fill_preserved _ _ _ (by rw [hd8]; rfl), hd8, hv]

/-- Claim C1: for every feature schema, well-formed request and loaded
historical data, the reconstructed FeatureVector exists (no exception), and
its key sequence is exactly the schema's column list — absent columns filled,
extra derived features dropped, order that of the schema. -/
theorem claim_C1_feature_parity (P : Predictor) (dt : DT) (lat lon : ℚ)
    (route incident dir : Str) (hh : P.hist.isSome) (hdt : validDT dt) :
    ∃ fv, reconstruct P dt lat lon route incident dir = some fv ∧
      fv.map Prod.fst = P.featureCols := by
  obtain ⟨filled, hEng, hAll, _⟩ := engineerDict_spec P dt lat lon route incident dir hh hdt
  obtain ⟨fv, hfv, hkeys⟩ := lookupCols_keys_some filled P.featureCols hAll
  exact ⟨fv, by simp [reconstruct, hEng, hfv], hkeys⟩

/-- Witness for claim C1 at a concrete predictor and request. -/
theorem claim_C1_feature_parity_witness :
    (testP.hist.isSome ∧ validDT ⟨2024, 12, 16, 0, 17, 30, 351, 51⟩) ∧
      ∃ fv, reconstruct testP ⟨2024, 12, 16, 0, 17, 30, 351, 51⟩ 1 1 (strL "36")
          (strL "QuantumGlitch") (strL "NORTH") = some fv ∧
        fv.map Prod.fst = testP.featureCols :=
  ⟨⟨rfl, by decide⟩,
    claim_C1_feature_parity testP ⟨2024, 12, 16, 0, 17, 30, 351, 51⟩ 1 1 (strL "36")
      (strL "QuantumGlitch") (strL "NORTH") rfl (by decide)⟩

/-- Claim C3: for an incident type not among the incident types seen at
training time, and a schema whose incident one-hot columns encode seen types
(no column for the unseen type itself, and only `incident_Other` encoding
`Other`) and include the designated `incident_Other` column, the reconstructed
vector has `incident_Other` = 1 and every other `incident_`-prefixed column
= 0. -/
theorem claim_C3_unseen_incident_other (P : Predictor) (dt : DT) (lat lon : ℚ)
    (route incident dir : Str) (its : List Str)
    (hits : incidentTypesOf P = some its)
    (hun : incident ∉ its)
    (hdt : validDT dt)
    (hother : strL "incident_Other" ∈ P.featureCols)
    (hnc : ∀ c ∈ P.featureCols, (strL "incident_").isPrefixOf c = true →
      replIncident c ≠ incident)
    (hno : ∀ c ∈ P.featureCols, (strL "incident_").isPrefixOf c = true →
      c ≠ strL "incident_Other" → replIncident c ≠ strL "Other") :
    ∃ fv, reconstruct P dt lat lon route incident dir = some fv ∧
      dget (strL "incident_Other") fv = some 1 ∧
      ∀ c ∈ P.featureCols, (strL "incident_").isPrefixOf c = true →
        c ≠ strL "incident_Other" → dget c fv = some 0 := by
  have hh : P.hist.isSome := by
    unfold incidentTypesOf at hits
    cases hr : P.hist with
    | none => rw [hr] at hits; cases hits
    | some rows => rfl
  obtain ⟨filled, hEng, hAll, hInc⟩ := engineerDict_spec P dt lat lon route incident dir hh hdt
  obtain ⟨fv, hfv, _⟩ := lookupCols_keys_some filled P.featureCols hAll
  refine ⟨fv, by simp [reconstruct, hEng, hfv], ?_, ?_⟩
  · rw [dget_lookupCols filled _ P.featureCols fv hfv hother,
      hInc _ hother (by decide)]
    have hrep : replIncident (strL "incident_Other") = strL "Other" := by decide
    rw [hrep]
    unfold incFlagVal
    by_cases he : incident = strL "Other"
    · rw [if_pos he]
    · rw [if_neg he, if_pos rfl, hits]
      simp [hun]
  · intro c hc hpre hne
    rw [dget_lookupCols filled _ P.featureCols fv hfv hc, hInc _ hc hpre]
    unfold incFlagVal
    rw [if_neg (fun he => hnc c hc hpre he.symm), if_neg (hno c hc hpre hne)]

/-- Witness for claim C3: schema with `incident_Other`, `incident_Mechanical`
and `incident_avg_delay`; incident type `QuantumGlitch` unseen in the
historical data. -/
theorem claim_C3_unseen_incident_other_witness :
    (incidentTypesOf testP = some [strL "Diversion", strL "Mechanical"] ∧
      (strL "QuantumGlitch" : Str) ∉ [strL "Diversion", strL "Mechanical"] ∧
      validDT ⟨2024, 12, 16, 0, 17, 30, 351, 51⟩ ∧
      strL "incident_Other" ∈ testP.featureCols) ∧
    ∃ fv, reconstruct testP ⟨2024, 12, 16, 0, 17, 30, 351, 51⟩ 1 1 (strL "36")
        (strL "QuantumGlitch") (strL "NORTH") = some fv ∧
      dget (strL "incident_Other") fv = some 1 ∧
      ∀ c ∈ testP.featureCols, (strL "incident_").isPrefixOf c = true →
        c ≠ strL "incident_Other" → dget c fv = some 0 :=
  ⟨⟨by decide, by decide, by decide, by decide⟩,
    claim_C3_unseen_incident_other testP ⟨2024, 12, 16, 0, 17, 30, 351, 51⟩ 1 1 (strL "36")
      (strL "QuantumGlitch") (strL "NORTH") [strL "Diversion", strL "Mechanical"]
      (by decide) (by decide) (by decide) (by decide) (by decide) (by decide)⟩

/-- Claim C10: whenever `predict_delay` returns a value, that value is
non-negative — the raw model output is clamped below at 0. -/
theorem claim_C10_nonneg_delay (P : Predictor) (dt : DT) (lat lon : ℚ)
    (route incident dir : Str) (d : ℚ)
    (h : predictDelay P dt lat lon route incident dir = some d) : 0 ≤ d := by
  unfold predictDelay at h
  obtain ⟨v, _, hd⟩ := Option.map_eq_some'.mp h
  rw [← hd]
  exact le_max_left 0 _

/-- Witness for claim C10 at a concrete predictor (whose model returns a
negative raw prediction). -/
theorem claim_C10_nonneg_delay_witness :
    predictDelay testP ⟨2024, 12, 16, 0, 17, 30, 351, 51⟩ 1 1 (strL "36")
        (strL "QuantumGlitch") (strL "NORTH") = some 0 ∧ (0 : ℚ) ≤ 0 :=
  ⟨by with_unfolding_all rfl,
    claim_C10_nonneg_delay testP ⟨2024, 12, 16, 0, 17, 30, 351, 51⟩ 1 1 (strL "36")
      (strL "QuantumGlitch") (strL "NORTH") 0 (by with_unfolding_all rfl)⟩

theorem hasSub_tail_false (pat : Str) (c : Char) (rest : Str)
    (h : hasSub pat (c :: rest) = false) : hasSub pat rest = false := by
  rw [hasSub, Bool.or_eq_false_iff] at h
  exact h.2

theorem word_not_spc (c : Char) (hw : isWordChar c = true) : isSpc c = false := by
  cases hs : isSpc c
  · rfl
  · exfalso
    simp only [isSpc, Bool.or_eq_true, decide_eq_true_eq] at hs
    simp only [isWordChar, Bool.or_eq_true, Bool.and_eq_true, decide_eq_true_eq] at hw
    rcases hs with ((((he | he) | he) | he) | he) | he <;> subst he <;>
      rcases hw with ((⟨h1, _⟩ | ⟨h1, _⟩) | ⟨h1, _⟩) | h1 <;> revert h1 <;> decide

theorem goodChar_spc (c : Char) (hg : goodChar c = true) (hs : isSpc c = true) : c = ' ' := by
  simp only [goodChar, Bool.or_eq_true, Bool.and_eq_true, decide_eq_true_eq] at hg
  rcases hg with ⟨hw, _⟩ | he
  · rw [word_not_spc c hw] at hs; cases hs
  · exact he

theorem okChar_spc (c : Char) (hg : okChar c = true) (hs : isSpc c = true) : c = ' ' := by
  simp only [okChar, Bool.or_eq_true, decide_eq_true_eq] at hg
  rcases hg with hg | hg
  · exact goodChar_spc c hg hs
  · subst hg; cases hs

theorem all_ok_of_good (t : Str) (hg : t.all goodChar = true) : t.all okChar = true := by
  rw [List.all_eq_true] at hg ⊢
  intro c hc
  simp only [okChar, Bool.or_eq_true]
  exact Or.inl (hg c hc)

theorem dotsSafe_tail (c : Char) (t : Str) (h : dotsSafe (c :: t) = true) :
    dotsSafe t = true := by
  rw [dotsSafe.eq_def] at h
  split at h
  · rename_i heq
    exact absurd heq (List.cons_ne_nil _ _)
  · rename_i rest heq
    injection heq with h1 h2
    subst h2
    simp only [Bool.and_eq_true] at h
    exact h.2
  · rename_i c2 rest hne heq
    injection heq with h1 h2
    subst h2
    exact h

theorem dotsSafe_of_no_dot : ∀ t : Str, '.' ∉ t → dotsSafe t = true := by
  intro t
  induction t with
  | nil => intro _; rfl
  | cons c rest ih =>
    intro h
    rw [dotsSafe.eq_def]
    split
    · rfl
    · rename_i rest2 heq
      injection heq with h1 h2
      exact absurd (h1 ▸ List.mem_cons_self c rest) h
    · rename_i c2 rest2 hne heq
      injection heq with h1 h2
      subst h2
      exact ih (fun hm => h (List.mem_cons_of_mem _ hm))

theorem dropLead_nodbl (rest : Str) (hg : rest.all okChar = true)
    (hd : hasSub [' ', ' '] (' ' :: rest) = false) : dropLead rest = rest := by
  cases rest with
  | nil => rfl
  | cons r rs =>
    have hrg : okChar r = true := by
      simp only [List.all_cons, Bool.and_eq_true] at hg
      exact hg.1
    by_cases hs : isSpc r = true
    · exfalso
      have hr : r = ' ' := okChar_spc r hrg hs
      subst hr
      rw [hasSub] at hd
      simp [List.isPrefixOf] at hd
    · rw [dropLead, List.dropWhile_cons, if_neg hs]

theorem connA_id_aux : ∀ (n : ℕ) (t pend : Str), t.length ≤ n →
    (pend ++ t).all okChar = true → hasSub [' ', ' '] (pend ++ t) = false →
    hasSub (strL " and ") (pend ++ t) = false → (pend = [] ∨ pend = [' ']) →
    connA pend false t = pend ++ t ∧ (pend = [] → connA [] true t = dropLead t) := by
  intro n
  induction n with
  | zero =>
    intro t pend hlen hg hd ha hp
    have ht : t = [] := List.length_eq_zero.mp (Nat.le_zero.mp hlen)
    subst ht
    exact ⟨by simp [connA], fun hpe => by subst hpe; rfl⟩
  | succ n ih =>
    intro t pend hlen hg hd ha hp
    rcases hp with hp | hp <;> subst hp
    -- pend = [] throughout the first block
    · simp only [List.nil_append] at hg hd ha ⊢
      constructor
      · rw [connA.eq_def]
        split
        · rfl
        · -- t = 'a' :: 't' :: d :: rest
          next d rest =>
            simp only [List.isEmpty_nil, if_true]
            have hlen' : ('t' :: d :: rest).length ≤ n := by
              simp only [List.length_cons] at hlen ⊢; omega
            have hg' : ('t' :: d :: rest).all okChar = true := by
              simp only [List.all_cons, Bool.and_eq_true] at hg ⊢; tauto
            have hd' := hasSub_tail_false _ _ _ hd
            have ha' := hasSub_tail_false _ _ _ ha
            rw [(ih ('t' :: d :: rest) [] hlen' hg' hd' ha' (Or.inl rfl)).1]
            rfl
        · -- t = 'a' :: 'n' :: 'd' :: d :: rest
          next d rest =>
            simp only [List.isEmpty_nil, if_true]
            have hlen' : ('n' :: 'd' :: d :: rest).length ≤ n := by
              simp only [List.length_cons] at hlen ⊢; omega
            have hg' : ('n' :: 'd' :: d :: rest).all okChar = true := by
              simp only [List.all_cons, Bool.and_eq_true] at hg ⊢; tauto
            have hd' := hasSub_tail_false _ _ _ hd
            have ha' := hasSub_tail_false _ _ _ ha
            rw [(ih ('n' :: 'd' :: d :: rest) [] hlen' hg' hd' ha' (Or.inl rfl)).1]
            rfl
        · -- t = '&' :: d :: rest : impossible, '&' is not a good character
          next d rest =>
            exfalso
            simp only [List.all_cons, Bool.and_eq_true] at hg
            have : okChar '&' = false := by decide
            rw [this] at hg
            exact Bool.false_ne_true hg.1
        · -- catch-all
          next c rest hn1 hn2 hn3 =>
            have hlen' : rest.length ≤ n := by
              simp only [List.length_cons] at hlen; omega
            have hgc : okChar c = true := by
              simp only [List.all_cons, Bool.and_eq_true] at hg; exact hg.1
            have hg' : rest.all okChar = true := by
              simp only [List.all_cons, Bool.and_eq_true] at hg; exact hg.2
            have hd' := hasSub_tail_false _ _ _ hd
            have ha' := hasSub_tail_false _ _ _ ha
            by_cases hsc : isSpc c = true
            · have hc : c = ' ' := okChar_spc c hgc hsc
              subst hc
              simp only [hsc, if_true, Bool.false_eq_true, if_false, List.nil_append]
              rw [(ih rest [' '] hlen' (by simpa using hg) (by simpa using hd)
                (by simpa using ha) (Or.inr rfl)).1]
              rfl
            · simp only [hsc, if_false, List.isEmpty_nil, if_true, List.nil_append,
                Bool.false_eq_true]
              rw [(ih rest [] hlen' hg' hd' ha' (Or.inl rfl)).1]
              rfl
      · intro _
        rw [connA.eq_def]
        split
        · rfl
        · next d rest =>
            simp only [List.isEmpty_nil, if_true]
            have hlen' : ('t' :: d :: rest).length ≤ n := by
              simp only [List.length_cons] at hlen ⊢; omega
            have hg' : ('t' :: d :: rest).all okChar = true := by
              simp only [List.all_cons, Bool.and_eq_true] at hg ⊢; tauto
            have hd' := hasSub_tail_false _ _ _ hd
            have ha' := hasSub_tail_false _ _ _ ha
            rw [(ih ('t' :: d :: rest) [] hlen' hg' hd' ha' (Or.inl rfl)).1]
            rfl
        · next d rest =>
            simp only [List.isEmpty_nil, if_true]
            have hlen' : ('n' :: 'd' :: d :: rest).length ≤ n := by
              simp only [List.length_cons] at hlen ⊢; omega
            have hg' : ('n' :: 'd' :: d :: rest).all okChar = true := by
              simp only [List.all_cons, Bool.and_eq_true] at hg ⊢; tauto
            have hd' := hasSub_tail_false _ _ _ hd
            have ha' := hasSub_tail_false _ _ _ ha
            rw [(ih ('n' :: 'd' :: d :: rest) [] hlen' hg' hd' ha' (Or.inl rfl)).1]
            rfl
        · next d rest =>
            exfalso
            simp only [List.all_cons, Bool.and_eq_true] at hg
            have : okChar '&' = false := by decide
            rw [this] at hg
            exact Bool.false_ne_true hg.1
        · next c rest hn1 hn2 hn3 =>
            have hlen' : rest.length ≤ n := by
              simp only [List.length_cons] at hlen; omega
            have hgc : okChar c = true := by
              simp only [List.all_cons, Bool.and_eq_true] at hg; exact hg.1
            have hg' : rest.all okChar = true := by
              simp only [List.all_cons, Bool.and_eq_true] at hg; exact hg.2
            have hd' := hasSub_tail_false _ _ _ hd
            have ha' := hasSub_tail_false _ _ _ ha
            by_cases hsc : isSpc c = true
            · have hdc : dropLead (c :: rest) = dropLead rest := by
                rw [dropLead, List.dropWhile_cons, if_pos hsc]
                rfl
              simp only [hsc, if_true]
              rw [(ih rest [] hlen' hg' hd' ha' (Or.inl rfl)).2 rfl, hdc]
            · have hdc : dropLead (c :: rest) = c :: rest := by
                rw [dropLead, List.dropWhile_cons, if_neg hsc]
              simp only [hsc, if_false, List.isEmpty_nil, if_true, List.nil_append,
                Bool.false_eq_true]
              rw [(ih rest [] hlen' hg' hd' ha' (Or.inl rfl)).1, hdc]
              rfl
    -- pend = [' ']
    · refine ⟨?_, fun hpe => by cases hpe⟩
      rw [connA.eq_def]
      split
      · simp
      · -- t = 'a' :: 't' :: d :: rest
        next d rest =>
          simp only [List.isEmpty_cons, Bool.false_eq_true, if_false]
          have hgd : okChar d = true := by
            simp only [List.cons_append, List.nil_append, List.all_cons, Bool.and_eq_true] at hg
            tauto
          by_cases hsd : isSpc d = true
          · have hdsp : d = ' ' := okChar_spc d hgd hsd
            subst hdsp
            simp only [hsd, if_true]
            have hlen' : (' ' :: rest).length ≤ n := by
              simp only [List.length_cons] at hlen ⊢; omega
            have hg' : (' ' :: rest).all okChar = true := by
              simp only [List.cons_append, List.nil_append, List.all_cons, Bool.and_eq_true] at hg ⊢; tauto
            have hd' : hasSub [' ', ' '] (' ' :: rest) = false := by
              simp only [List.cons_append, List.nil_append] at hd
              exact hasSub_tail_false _ _ _ (hasSub_tail_false _ _ _
                (hasSub_tail_false _ _ _ hd))
            have ha' : hasSub (strL " and ") (' ' :: rest) = false := by
              simp only [List.cons_append, List.nil_append] at ha
              exact hasSub_tail_false _ _ _ (hasSub_tail_false _ _ _
                (hasSub_tail_false _ _ _ ha))
            rw [(ih (' ' :: rest) [] hlen' hg' hd' ha' (Or.inl rfl)).2 rfl]
            rw [dropLead, List.dropWhile_cons]
            simp only [show isSpc ' ' = true from rfl, if_true]
            have hgr : rest.all okChar = true := by
              simp only [List.all_cons, Bool.and_eq_true] at hg'
              exact hg'.2
            rw [show List.dropWhile isSpc rest = dropLead rest from rfl,
              dropLead_nodbl rest hgr hd']
            rfl
          · simp only [hsd, if_false]
            have hlen' : ('t' :: d :: rest).length ≤ n := by
              simp only [List.length_cons] at hlen ⊢; omega
            have hg' : ('t' :: d :: rest).all okChar = true := by
              simp only [List.cons_append, List.nil_append, List.all_cons, Bool.and_eq_true] at hg ⊢; tauto
            have hd' : hasSub [' ', ' '] ('t' :: d :: rest) = false := by
              simp only [List.cons_append, List.nil_append] at hd
              exact hasSub_tail_false _ _ _ (hasSub_tail_false _ _ _ hd)
            have ha' : hasSub (strL " and ") ('t' :: d :: rest) = false := by
              simp only [List.cons_append, List.nil_append] at ha
              exact hasSub_tail_false _ _ _ (hasSub_tail_false _ _ _ ha)
            rw [(ih ('t' :: d :: rest) [] hlen' hg' hd' ha' (Or.inl rfl)).1]
            rfl
      · -- t = 'a' :: 'n' :: 'd' :: d :: rest
        next d rest =>
          simp only [List.isEmpty_cons, Bool.false_eq_true, if_false]
          have hgd : okChar d = true := by
            simp only [List.cons_append, List.nil_append, List.all_cons, Bool.and_eq_true] at hg
            tauto
          by_cases hsd : isSpc d = true
          · exfalso
            have hdsp : d = ' ' := okChar_spc d hgd hsd
            subst hdsp
            simp only [List.cons_append, List.nil_append] at ha
            rw [hasSub] at ha
            simp [List.isPrefixOf, strL] at ha
          · simp only [hsd, if_false]
            have hlen' : ('n' :: 'd' :: d :: rest).length ≤ n := by
              simp only [List.length_cons] at hlen ⊢; omega
            have hg' : ('n' :: 'd' :: d :: rest).all okChar = true := by
              simp only [List.cons_append, List.nil_append, List.all_cons, Bool.and_eq_true] at hg ⊢; tauto
            have hd' : hasSub [' ', ' '] ('n' :: 'd' :: d :: rest) = false := by
              simp only [List.cons_append, List.nil_append] at hd
              exact hasSub_tail_false _ _ _ (hasSub_tail_false _ _ _ hd)
            have ha' : hasSub (strL " and ") ('n' :: 'd' :: d :: rest) = false := by
              simp only [List.cons_append, List.nil_append] at ha
              exact hasSub_tail_false _ _ _ (hasSub_tail_false _ _ _ ha)
            rw [(ih ('n' :: 'd' :: d :: rest) [] hlen' hg' hd' ha' (Or.inl rfl)).1]
            rfl
      · -- t = '&' :: d :: rest
        next d rest =>
          exfalso
          simp only [List.cons_append, List.nil_append, List.all_cons, Bool.and_eq_true] at hg
          have : okChar '&' = false := by decide
          rw [this] at hg
          exact Bool.false_ne_true hg.2.1
      · -- catch-all
        next c rest hn1 hn2 hn3 =>
          have hgc : okChar c = true := by
            simp only [List.cons_append, List.nil_append, List.all_cons, Bool.and_eq_true] at hg
            exact hg.2.1
          have hlen' : rest.length ≤ n := by
            simp only [List.length_cons] at hlen; omega
          by_cases hsc : isSpc c = true
          · exfalso
            have hc : c = ' ' := okChar_spc c hgc hsc
            subst hc
            simp only [List.cons_append, List.nil_append] at hd
            rw [hasSub] at hd
            simp [List.isPrefixOf] at hd
          · simp only [hsc, if_false, List.isEmpty_cons, Bool.false_eq_true]
            have hg' : rest.all okChar = true := by
              simp only [List.cons_append, List.nil_append, List.all_cons, Bool.and_eq_true] at hg
              exact hg.2.2
            have hd' : hasSub [' ', ' '] rest = false := by
              simp only [List.cons_append, List.nil_append] at hd
              exact hasSub_tail_false _ _ _ (hasSub_tail_false _ _ _ hd)
            have ha' : hasSub (strL " and ") rest = false := by
              simp only [List.cons_append, List.nil_append] at ha
              exact hasSub_tail_false _ _ _ (hasSub_tail_false _ _ _ ha)
            rw [(ih rest [] hlen' hg' hd' ha' (Or.inl rfl)).1]
            rfl

theorem subStaA_id : ∀ (prevW : Bool) (t : Str), noStaHit prevW t = true →
    subStaA prevW t = t := by
  intro prevW t
  induction prevW, t using subStaA.induct with
  | case1 x => intro _; rfl
  | case2 prevW rest hguard ih =>
    intro h
    rw [noStaHit, if_pos hguard] at h
    cases h
  | case3 prevW rest hguard ih =>
    intro h
    rw [noStaHit, if_neg hguard] at h
    rw [subStaA, if_neg hguard, ih h]
  | case4 x c rest hne ih =>
    intro h
    have hs : subStaA x (c :: rest) = c :: subStaA (isWordChar c) rest := by
      rw [subStaA.eq_def]
      split
      · rename_i heq
        exact absurd heq (List.cons_ne_nil _ _)
      · rename_i heq
        injection heq with h1 h2
        exact (hne _ h1 h2).elim
      · rename_i heq
        injection heq with h1 h2
        rw [h1, h2]
    have hn : noStaHit x (c :: rest) = noStaHit (isWordChar c) rest := by
      rw [noStaHit.eq_def]
      split
      · rename_i heq
        exact absurd heq (List.cons_ne_nil _ _)
      · rename_i heq
        injection heq with h1 h2
        exact (hne _ h1 h2).elim
      · rename_i heq
        injection heq with h1 h2
        rw [h1, h2]
    rw [hn] at h
    rw [hs, ih h]

theorem subStatioA_id : ∀ (prevW : Bool) (t : Str), noStatioHit prevW t = true →
    subStatioA prevW t = t := by
  intro prevW t
  induction prevW, t using subStatioA.induct with
  | case1 x => intro _; rfl
  | case2 prevW rest hguard ih =>
    intro h
    rw [noStatioHit, if_pos hguard] at h
    cases h
  | case3 prevW rest hguard ih =>
    intro h
    rw [noStatioHit, if_neg hguard] at h
    rw [subStatioA, if_neg hguard, ih h]
  | case4 x c rest hne ih =>
    intro h
    have hs : subStatioA x (c :: rest) = c :: subStatioA (isWordChar c) rest := by
      rw [subStatioA.eq_def]
      split
      · rename_i heq
        exact absurd heq (List.cons_ne_nil _ _)
      · rename_i heq
        injection heq with h1 h2
        exact (hne _ h1 h2).elim
      · rename_i heq
        injection heq with h1 h2
        rw [h1, h2]
    have hn : noStatioHit x (c :: rest) = noStatioHit (isWordChar c) rest := by
      rw [noStatioHit.eq_def]
      split
      · rename_i heq
        exact absurd heq (List.cons_ne_nil _ _)
      · rename_i heq
        injection heq with h1 h2
        exact (hne _ h1 h2).elim
      · rename_i heq
        injection heq with h1 h2
        rw [h1, h2]
    rw [hn] at h
    rw [hs, ih h]

theorem subStnA_id : ∀ (prevW : Bool) (t : Str), noStnHit prevW t = true →
    subStnA prevW t = t := by
  intro prevW t
  induction prevW, t using subStnA.induct with
  | case1 x => intro _; rfl
  | case2 prevW rest hguard ih =>
    intro h
    rw [noStnHit, if_pos hguard] at h
    cases h
  | case3 prevW rest hguard ih =>
    intro h
    rw [noStnHit, if_neg hguard] at h
    rw [subStnA, if_neg hguard, ih h]
  | case4 x c rest hne ih =>
    intro h
    have hs : subStnA x (c :: rest) = c :: subStnA (isWordChar c) rest := by
      rw [subStnA.eq_def]
      split
      · rename_i heq
        exact absurd heq (List.cons_ne_nil _ _)
      · rename_i heq
        injection heq with h1 h2
        exact (hne _ h1 h2).elim
      · rename_i heq
        injection heq with h1 h2
        rw [h1, h2]
    have hn : noStnHit x (c :: rest) = noStnHit (isWordChar c) rest := by
      rw [noStnHit.eq_def]
      split
      · rename_i heq
        exact absurd heq (List.cons_ne_nil _ _)
      · rename_i heq
        injection heq with h1 h2
        exact (hne _ h1 h2).elim
      · rename_i heq
        injection heq with h1 h2
        rw [h1, h2]
    rw [hn] at h
    rw [hs, ih h]

theorem subAveA_id : ∀ (n : ℕ) (prevW : Bool) (t : Str), t.length ≤ n → dotsSafe t = true →
    subAveA prevW t = t := by
  intro n
  induction n with
  | zero =>
    intro prevW t hlen _
    have ht : t = [] := List.length_eq_zero.mp (Nat.le_zero.mp hlen)
    subst ht; rfl
  | succ n ih =>
    intro prevW t hlen hd
    rw [subAveA.eq_def]
    split
    · rfl
    · rename_i d rest
      have hds : dotsSafe ('.' :: d :: rest) = true :=
        dotsSafe_tail _ _ (dotsSafe_tail _ _ (dotsSafe_tail _ _ (hd)))
      have hb : (boundaryOk (d :: rest) && dotsSafe (d :: rest)) = true := hds
      simp only [Bool.and_eq_true] at hb
      have hnw : isWordChar d = false := by
        have hbb := hb.1
        simp only [boundaryOk, Bool.not_eq_true'] at hbb
        exact hbb
      have hl1 : ('v' :: 'e' :: '.' :: d :: rest).length ≤ n := by
        simp only [List.length_cons] at hlen ⊢; omega
      have hl2 : ('.' :: d :: rest).length ≤ n := by
        simp only [List.length_cons] at hlen ⊢; omega
      by_cases hp : prevW = true
      · rw [if_pos hp, ih true ('v' :: 'e' :: '.' :: d :: rest) hl1 (dotsSafe_tail _ _ hd)]
      · rw [if_neg hp, if_neg (by rw [hnw]; exact Bool.false_ne_true),
          ih true ('.' :: d :: rest) hl2 hds]
    · rename_i rest hne
      have hdr1 : dotsSafe ('v' :: 'e' :: rest) = true := dotsSafe_tail _ _ hd
      have hdr : dotsSafe rest = true := dotsSafe_tail _ _ (dotsSafe_tail _ _ (hdr1))
      have hl1 : ('v' :: 'e' :: rest).length ≤ n := by
        simp only [List.length_cons] at hlen ⊢; omega
      have hl2 : rest.length ≤ n := by
        simp only [List.length_cons] at hlen; omega
      by_cases hp : prevW = true
      · rw [if_pos hp, ih true ('v' :: 'e' :: rest) hl1 hdr1]
      · rw [if_neg hp]
        by_cases hbk : boundaryOk rest = true
        · rw [if_pos hbk, ih true rest hl2 hdr]
        · rw [if_neg hbk, ih true ('v' :: 'e' :: rest) hl1 hdr1]
    · rename_i c rest hne1 hne2
      have hdr : dotsSafe rest = true := dotsSafe_tail _ _ hd
      have hl : rest.length ≤ n := by
        simp only [List.length_cons] at hlen; omega
      rw [ih (isWordChar c) rest hl hdr]
theorem subRdA_id : ∀ (n : ℕ) (prevW : Bool) (t : Str), t.length ≤ n → dotsSafe t = true →
    subRdA prevW t = t := by
  intro n
  induction n with
  | zero =>
    intro prevW t hlen _
    have ht : t = [] := List.length_eq_zero.mp (Nat.le_zero.mp hlen)
    subst ht; rfl
  | succ n ih =>
    intro prevW t hlen hd
    rw [subRdA.eq_def]
    split
    · rfl
    · rename_i d rest
      have hds : dotsSafe ('.' :: d :: rest) = true :=
        dotsSafe_tail _ _ (dotsSafe_tail _ _ (hd))
      have hb : (boundaryOk (d :: rest) && dotsSafe (d :: rest)) = true := hds
      simp only [Bool.and_eq_true] at hb
      have hnw : isWordChar d = false := by
        have hbb := hb.1
        simp only [boundaryOk, Bool.not_eq_true'] at hbb
        exact hbb
      have hl1 : ('d' :: '.' :: d :: rest).length ≤ n := by
        simp only [List.length_cons] at hlen ⊢; omega
      have hl2 : ('.' :: d :: rest).length ≤ n := by
        simp only [List.length_cons] at hlen ⊢; omega
      by_cases hp : prevW = true
      · rw [if_pos hp, ih true ('d' :: '.' :: d :: rest) hl1 (dotsSafe_tail _ _ hd)]
      · rw [if_neg hp, if_neg (by rw [hnw]; exact Bool.false_ne_true),
          ih true ('.' :: d :: rest) hl2 hds]
    · rename_i rest hne
      have hdr1 : dotsSafe ('d' :: rest) = true := dotsSafe_tail _ _ hd
      have hdr : dotsSafe rest = true := dotsSafe_tail _ _ (hdr1)
      have hl1 : ('d' :: rest).length ≤ n := by
        simp only [List.length_cons] at hlen ⊢; omega
      have hl2 : rest.length ≤ n := by
        simp only [List.length_cons] at hlen; omega
      by_cases hp : prevW = true
      · rw [if_pos hp, ih true ('d' :: rest) hl1 hdr1]
      · rw [if_neg hp]
        by_cases hbk : boundaryOk rest = true
        · rw [if_pos hbk, ih true rest hl2 hdr]
        · rw [if_neg hbk, ih true ('d' :: rest) hl1 hdr1]
    · rename_i c rest hne1 hne2
      have hdr : dotsSafe rest = true := dotsSafe_tail _ _ hd
      have hl : rest.length ≤ n := by
        simp only [List.length_cons] at hlen; omega
      rw [ih (isWordChar c) rest hl hdr]
theorem subBlvdA_id : ∀ (n : ℕ) (prevW : Bool) (t : Str), t.length ≤ n → dotsSafe t = true →
    subBlvdA prevW t = t := by
  intro n
  induction n with
  | zero =>
    intro prevW t hlen _
    have ht : t = [] := List.length_eq_zero.mp (Nat.le_zero.mp hlen)
    subst ht; rfl
  | succ n ih =>
    intro prevW t hlen hd
    rw [subBlvdA.eq_def]
    split
    · rfl
    · rename_i d rest
      have hds : dotsSafe ('.' :: d :: rest) = true :=
        dotsSafe_tail _ _ (dotsSafe_tail _ _ (dotsSafe_tail _ _ (dotsSafe_tail _ _ (hd))))
      have hb : (boundaryOk (d :: rest) && dotsSafe (d :: rest)) = true := hds
      simp only [Bool.and_eq_true] at hb
      have hnw : isWordChar d = false := by
        have hbb := hb.1
        simp only [boundaryOk, Bool.not_eq_true'] at hbb
        exact hbb
      have hl1 : ('l' :: 'v' :: 'd' :: '.' :: d :: rest).length ≤ n := by
        simp only [List.length_cons] at hlen ⊢; omega
      have hl2 : ('.' :: d :: rest).length ≤ n := by
        simp only [List.length_cons] at hlen ⊢; omega
      by_cases hp : prevW = true
      · rw [if_pos hp, ih true ('l' :: 'v' :: 'd' :: '.' :: d :: rest) hl1 (dotsSafe_tail _ _ hd)]
      · rw [if_neg hp, if_neg (by rw [hnw]; exact Bool.false_ne_true),
          ih true ('.' :: d :: rest) hl2 hds]
    · rename_i rest hne
      have hdr1 : dotsSafe ('l' :: 'v' :: 'd' :: rest) = true := dotsSafe_tail _ _ hd
      have hdr : dotsSafe rest = true := dotsSafe_tail _ _ (dotsSafe_tail _ _ (dotsSafe_tail _ _ (hdr1)))
      have hl1 : ('l' :: 'v' :: 'd' :: rest).length ≤ n := by
        simp only [List.length_cons] at hlen ⊢; omega
      have hl2 : rest.length ≤ n := by
        simp only [List.length_cons] at hlen; omega
      by_cases hp : prevW = true
      · rw [if_pos hp, ih true ('l' :: 'v' :: 'd' :: rest) hl1 hdr1]
      · rw [if_neg hp]
        by_cases hbk : boundaryOk rest = true
        · rw [if_pos hbk, ih true rest hl2 hdr]
        · rw [if_neg hbk, ih true ('l' :: 'v' :: 'd' :: rest) hl1 hdr1]
    · rename_i c rest hne1 hne2
      have hdr : dotsSafe rest = true := dotsSafe_tail _ _ hd
      have hl : rest.length ≤ n := by
        simp only [List.length_cons] at hlen; omega
      rw [ih (isWordChar c) rest hl hdr]
theorem subStA_id : ∀ (n : ℕ) (prevW : Bool) (t : Str), t.length ≤ n → dotsSafe t = true →
    subStA prevW t = t := by
  intro n
  induction n with
  | zero =>
    intro prevW t hlen _
    have ht : t = [] := List.length_eq_zero.mp (Nat.le_zero.mp hlen)
    subst ht; rfl
  | succ n ih =>
    intro prevW t hlen hd
    rw [subStA.eq_def]
    split
    · rfl
    · rename_i d rest
      have hds : dotsSafe ('.' :: d :: rest) = true :=
        dotsSafe_tail _ _ (dotsSafe_tail _ _ (hd))
      have hb : (boundaryOk (d :: rest) && dotsSafe (d :: rest)) = true := hds
      simp only [Bool.and_eq_true] at hb
      have hnw : isWordChar d = false := by
        have hbb := hb.1
        simp only [boundaryOk, Bool.not_eq_true'] at hbb
        exact hbb
      have hl1 : ('t' :: '.' :: d :: rest).length ≤ n := by
        simp only [List.length_cons] at hlen ⊢; omega
      have hl2 : ('.' :: d :: rest).length ≤ n := by
        simp only [List.length_cons] at hlen ⊢; omega
      by_cases hp : prevW = true
      · rw [if_pos hp, ih true ('t' :: '.' :: d :: rest) hl1 (dotsSafe_tail _ _ hd)]
      · rw [if_neg hp, if_neg (by rw [hnw]; exact Bool.false_ne_true),
          ih true ('.' :: d :: rest) hl2 hds]
    · rename_i rest hne
      have hdr1 : dotsSafe ('t' :: rest) = true := dotsSafe_tail _ _ hd
      have hdr : dotsSafe rest = true := dotsSafe_tail _ _ (hdr1)
      have hl1 : ('t' :: rest).length ≤ n := by
        simp only [List.length_cons] at hlen ⊢; omega
      have hl2 : rest.length ≤ n := by
        simp only [List.length_cons] at hlen; omega
      by_cases hp : prevW = true
      · rw [if_pos hp, ih true ('t' :: rest) hl1 hdr1]
      · rw [if_neg hp]
        by_cases hbk : boundaryOk rest = true
        · rw [if_pos hbk, ih true rest hl2 hdr]
        · rw [if_neg hbk, ih true ('t' :: rest) hl1 hdr1]
    · rename_i c rest hne1 hne2
      have hdr : dotsSafe rest = true := dotsSafe_tail _ _ hd
      have hl : rest.length ≤ n := by
        simp only [List.length_cons] at hlen; omega
      rw [ih (isWordChar c) rest hl hdr]
theorem subDrA_id : ∀ (n : ℕ) (prevW : Bool) (t : Str), t.length ≤ n → dotsSafe t = true →
    subDrA prevW t = t := by
  intro n
  induction n with
  | zero =>
    intro prevW t hlen _
    have ht : t = [] := List.length_eq_zero.mp (Nat.le_zero.mp hlen)
    subst ht; rfl
  | succ n ih =>
    intro prevW t hlen hd
    rw [subDrA.eq_def]
    split
    · rfl
    · rename_i d rest
      have hds : dotsSafe ('.' :: d :: rest) = true :=
        dotsSafe_tail _ _ (dotsSafe_tail _ _ (hd))
      have hb : (boundaryOk (d :: rest) && dotsSafe (d :: rest)) = true := hds
      simp only [Bool.and_eq_true] at hb
      have hnw : isWordChar d = false := by
        have hbb := hb.1
        simp only [boundaryOk, Bool.not_eq_true'] at hbb
        exact hbb
      have hl1 : ('r' :: '.' :: d :: rest).length ≤ n := by
        simp only [List.length_cons] at hlen ⊢; omega
      have hl2 : ('.' :: d :: rest).length ≤ n := by
        simp only [List.length_cons] at hlen ⊢; omega
      by_cases hp : prevW = true
      · rw [if_pos hp, ih true ('r' :: '.' :: d :: rest) hl1 (dotsSafe_tail _ _ hd)]
      · rw [if_neg hp, if_neg (by rw [hnw]; exact Bool.false_ne_true),
          ih true ('.' :: d :: rest) hl2 hds]
    · rename_i rest hne
      have hdr1 : dotsSafe ('r' :: rest) = true := dotsSafe_tail _ _ hd
      have hdr : dotsSafe rest = true := dotsSafe_tail _ _ (hdr1)
      have hl1 : ('r' :: rest).length ≤ n := by
        simp only [List.length_cons] at hlen ⊢; omega
      have hl2 : rest.length ≤ n := by
        simp only [List.length_cons] at hlen; omega
      by_cases hp : prevW = true
      · rw [if_pos hp, ih true ('r' :: rest) hl1 hdr1]
      · rw [if_neg hp]
        by_cases hbk : boundaryOk rest = true
        · rw [if_pos hbk, ih true rest hl2 hdr]
        · rw [if_neg hbk, ih true ('r' :: rest) hl1 hdr1]
    · rename_i c rest hne1 hne2
      have hdr : dotsSafe rest = true := dotsSafe_tail _ _ hd
      have hl : rest.length ≤ n := by
        simp only [List.length_cons] at hlen; omega
      rw [ih (isWordChar c) rest hl hdr]
theorem goodChar_toLower (c : Char) (hg : goodChar c = true) : c.toLower = c := by
  unfold Char.toLower
  rw [if_neg]
  intro ⟨h1, h2⟩
  have hu : c.isUpper = true := by
    simp only [Char.isUpper, Bool.and_eq_true, decide_eq_true_eq]
    exact ⟨h1, h2⟩
  simp only [goodChar, Bool.or_eq_true, Bool.and_eq_true, Bool.not_eq_true',
    decide_eq_true_eq] at hg
  rcases hg with ⟨_, hu'⟩ | he
  · rw [hu] at hu'; cases hu'
  · subst he; revert hu; decide

theorem map_toLower_id : ∀ t : Str, t.all goodChar = true → t.map Char.toLower = t := by
  intro t
  induction t with
  | nil => intro _; rfl
  | cons c rest ih =>
    intro h
    simp only [List.all_cons, Bool.and_eq_true] at h
    simp only [List.map_cons, goodChar_toLower c h.1, ih h.2]

theorem dropWhile_id (p : Char → Bool) : ∀ t : Str,
    (∀ c rest, t = c :: rest → p c = false) → t.dropWhile p = t := by
  intro t h
  cases t with
  | nil => rfl
  | cons c rest =>
    rw [List.dropWhile_cons, if_neg (by rw [h c rest rfl]; exact Bool.false_ne_true)]

theorem all_good_ne (t : Str) (hg : t.all goodChar = true) (c : Char)
    (hc : goodChar c = false) : c ∉ t := by
  intro hm
  rw [List.all_eq_true] at hg
  rw [hg c hm] at hc
  cases hc

theorem stripWs_id (t : Str) (h1 : headNotSpc t = true) (h2 : headNotSpc t.reverse = true) :
    stripWs t = t := by
  unfold stripWs dropLead
  rw [dropWhile_id isSpc t, dropWhile_id isSpc t.reverse, List.reverse_reverse]
  · intro c rest he
    rw [he] at h2
    rw [headNotSpc] at h2
    simpa using h2
  · intro c rest he
    rw [he] at h1
    rw [headNotSpc] at h1
    simpa using h1

theorem stripQ_id (t : Str) (hg : t.all goodChar = true) : stripQ t = t := by
  have hq : '"' ∉ t := all_good_ne t hg '"' (by decide)
  unfold stripQ
  rw [dropWhile_id _ t, dropWhile_id _ t.reverse, List.reverse_reverse]
  · intro c rest he
    have : c ∈ t.reverse := by rw [he]; exact List.mem_cons_self c rest
    have hct : c ∈ t := List.mem_reverse.mp this
    simp only [decide_eq_false_iff_not]
    intro hcq
    exact hq (by rw [hcq] at hct; exact hct)
  · intro c rest he
    have hct : c ∈ t := by rw [he]; exact List.mem_cons_self c rest
    simp only [decide_eq_false_iff_not]
    intro hcq
    exact hq (by rw [hcq] at hct; exact hct)

theorem goodChar_word_or_spc (c : Char) (hg : goodChar c = true) :
    (isWordChar c || isSpc c) = true := by
  simp only [goodChar, Bool.or_eq_true, Bool.and_eq_true, decide_eq_true_eq] at hg
  rcases hg with ⟨hw, _⟩ | he
  · simp [hw]
  · subst he; decide

theorem subPunct_id : ∀ t : Str, t.all goodChar = true → subPunct t = t := by
  intro t
  induction t with
  | nil => intro _; rfl
  | cons c rest ih =>
    intro h
    simp only [List.all_cons, Bool.and_eq_true] at h
    simp only [subPunct, List.map_cons]
    rw [show (if isWordChar c || isSpc c then c else ' ') = c from
      if_pos (goodChar_word_or_spc c h.1)]
    have := ih h.2
    rw [subPunct] at this
    rw [this]

theorem collapseWs_id : ∀ t : Str, t.all goodChar = true →
    hasSub [' ', ' '] t = false → collapseWs t = t := by
  intro t
  induction t using collapseWs.induct with
  | case1 => intro _ _; rfl
  | case2 c hs =>
    intro hg _
    simp only [List.all_cons, Bool.and_eq_true] at hg
    rw [collapseWs, if_pos hs, goodChar_spc c hg.1 hs]
  | case3 c hs =>
    intro _ _
    rw [collapseWs, if_neg hs]
  | case4 c d rest hs hsd ih =>
    intro hg hd
    exfalso
    simp only [List.all_cons, Bool.and_eq_true] at hg
    have hc : c = ' ' := goodChar_spc c hg.1 hs
    have hdsp : d = ' ' := goodChar_spc d hg.2.1 hsd
    subst hc hdsp
    rw [hasSub] at hd
    simp [List.isPrefixOf] at hd
  | case5 c d rest hs hsd ih =>
    intro hg hd
    simp only [List.all_cons, Bool.and_eq_true] at hg
    have hc : c = ' ' := goodChar_spc c hg.1 hs
    rw [collapseWs, if_pos hs, if_neg hsd,
      ih (by simp only [List.all_cons, Bool.and_eq_true]; exact hg.2)
        (hasSub_tail_false _ _ _ hd), hc]
  | case6 c d rest hs ih =>
    intro hg hd
    simp only [List.all_cons, Bool.and_eq_true] at hg
    rw [collapseWs, if_neg hs,
      ih (by simp only [List.all_cons, Bool.and_eq_true]; exact hg.2)
        (hasSub_tail_false _ _ _ hd)]

theorem okChar_toLower (c : Char) (hg : okChar c = true) : c.toLower = c := by
  simp only [okChar, Bool.or_eq_true, decide_eq_true_eq] at hg
  rcases hg with hg | hg
  · exact goodChar_toLower c hg
  · subst hg; decide

theorem map_toLower_ok : ∀ t : Str, t.all okChar = true → t.map Char.toLower = t := by
  intro t
  induction t with
  | nil => intro _; rfl
  | cons c rest ih =>
    intro h
    simp only [List.all_cons, Bool.and_eq_true] at h
    rw [List.map_cons, okChar_toLower c h.1, ih h.2]

theorem all_ok_ne (t : Str) (hg : t.all okChar = true) (c : Char)
    (hc : okChar c = false) : c ∉ t := by
  intro hm
  rw [List.all_eq_true] at hg
  rw [hg c hm] at hc
  cases hc

theorem stripQ_ok (t : Str) (hg : t.all okChar = true) : stripQ t = t := by
  have hq : '"' ∉ t := all_ok_ne t hg '"' (by decide)
  unfold stripQ
  rw [dropWhile_id _ t, dropWhile_id _ t.reverse, List.reverse_reverse]
  · intro c rest he
    have : c ∈ t.reverse := by rw [he]; exact List.mem_cons_self c rest
    have hct : c ∈ t := List.mem_reverse.mp this
    simp only [decide_eq_false_iff_not]
    intro hcq
    exact hq (by rw [hcq] at hct; exact hct)
  · intro c rest he
    have hct : c ∈ t := by rw [he]; exact List.mem_cons_self c rest
    simp only [decide_eq_false_iff_not]
    intro hcq
    exact hq (by rw [hcq] at hct; exact hct)

theorem headNotSpc_append (p x : Str) (hp : p ≠ []) (h : headNotSpc p = true) :
    headNotSpc (p ++ x) = true := by
  cases p with
  | nil => exact absurd rfl hp
  | cons c p2 => exact h

theorem headNotSpc_rev_append (x y : Str) (hy : y ≠ []) :
    headNotSpc (x ++ y).reverse = headNotSpc y.reverse := by
  have hyr : y.reverse ≠ [] := fun he => hy (by simpa using congrArg List.reverse he)
  cases hr : y.reverse with
  | nil => exact absurd hr hyr
  | cons c z =>
    rw [List.reverse_append, hr]
    rfl

theorem hasSub_drop_prefix (pat : Str) : ∀ x y : Str,
    hasSub pat (x ++ y) = false → hasSub pat y = false := by
  intro x
  induction x with
  | nil => intro y h; simpa using h
  | cons c x2 ih =>
    intro y h
    exact ih y (hasSub_tail_false _ _ _ h)

theorem lastNotSpc_of_nodbl : ∀ p : Str, p.all goodChar = true →
    hasSub [' ', ' '] (p ++ [' ']) = false → headNotSpc p.reverse = true := by
  intro p
  induction p with
  | nil => intro _ _; rfl
  | cons c p2 ih =>
    intro hg hd
    simp only [List.all_cons, Bool.and_eq_true] at hg
    cases p2 with
    | nil =>
      have hc : isSpc c = false := by
        by_cases hs : isSpc c = true
        · exfalso
          have : c = ' ' := goodChar_spc c hg.1 hs
          subst this
          simp only [List.cons_append, List.nil_append] at hd
          rw [hasSub] at hd
          simp [List.isPrefixOf] at hd
        · simpa using hs
      simp only [List.reverse_cons, List.reverse_nil, List.nil_append]
      simp [headNotSpc, hc]
    | cons e p3 =>
      have h1 : headNotSpc ([c] ++ (e :: p3)).reverse = headNotSpc (e :: p3).reverse :=
        headNotSpc_rev_append [c] (e :: p3) (List.cons_ne_nil _ _)
      simp only [List.singleton_append] at h1
      rw [h1]
      exact ih hg.2 (hasSub_tail_false _ _ _ hd)

theorem subPunct_dot (p v : Str) (hp : p.all goodChar = true) (hv : v.all goodChar = true) :
    subPunct (p ++ '.' :: v) = p ++ ' ' :: v := by
  have h1 : subPunct p = p := subPunct_id p hp
  have h2 : subPunct v = v := subPunct_id v hv
  simp only [subPunct] at h1 h2 ⊢
  rw [List.map_append, List.map_cons, h1, h2]
  rfl

theorem collapse_two (v : Str) (hv : v.all goodChar = true)
    (hd : hasSub [' ', ' '] (' ' :: v) = false) :
    collapseWs (' ' :: ' ' :: v) = ' ' :: v := by
  have h1 : collapseWs (' ' :: ' ' :: v) = collapseWs (' ' :: v) := rfl
  have h2 : (' ' :: v).all goodChar = true := by
    simp only [List.all_cons, Bool.and_eq_true]
    exact ⟨by decide, hv⟩
  rw [h1, collapseWs_id (' ' :: v) h2 hd]

theorem collapse_mid_id : ∀ (n : ℕ) (p v : Str), p.length ≤ n → p.all goodChar = true →
    hasSub [' ', ' '] (p ++ [' ']) = false → v.all goodChar = true →
    hasSub [' ', ' '] (' ' :: v) = false →
    collapseWs (p ++ ' ' :: ' ' :: v) = p ++ ' ' :: v := by
  intro n
  induction n with
  | zero =>
    intro p v hlen hg hpd hv hd
    have hp : p = [] := List.length_eq_zero.mp (Nat.le_zero.mp hlen)
    subst hp
    simpa using collapse_two v hv hd
  | succ n ih =>
    intro p v hlen hg hpd hv hd
    cases p with
    | nil => simpa using collapse_two v hv hd
    | cons c p2 =>
      simp only [List.all_cons, Bool.and_eq_true] at hg
      have hc : isSpc c = false ∨ c = ' ' := by
        by_cases hs : isSpc c = true
        · exact Or.inr (goodChar_spc c hg.1 hs)
        · exact Or.inl (by simpa using hs)
      cases p2 with
      | nil =>
        have hcn : isSpc c = false := by
          rcases hc with hc | hc
          · exact hc
          · exfalso
            subst hc
            simp only [List.cons_append, List.nil_append] at hpd
            rw [hasSub] at hpd
            simp [List.isPrefixOf] at hpd
        have hstep : collapseWs (c :: ' ' :: ' ' :: v) =
            if isSpc c then
              (if isSpc ' ' then collapseWs (' ' :: ' ' :: v)
                else ' ' :: collapseWs (' ' :: ' ' :: v))
            else c :: collapseWs (' ' :: ' ' :: v) := rfl
        simp only [List.cons_append, List.nil_append]
        rw [hstep, if_neg (by rw [hcn]; exact Bool.false_ne_true)]
        rw [collapse_two v hv hd]
      | cons e p3 =>
        have hlen2 : (e :: p3).length ≤ n := by
          simp only [List.length_cons] at hlen ⊢; omega
        have hg2 : (e :: p3).all goodChar = true := hg.2
        have hge : goodChar e = true ∧ p3.all goodChar = true := by
          simpa only [List.all_cons, Bool.and_eq_true] using hg2
        have hpd2 : hasSub [' ', ' '] ((e :: p3) ++ [' ']) = false :=
          hasSub_tail_false _ _ _ hpd
        have hrec := ih (e :: p3) v hlen2 hg2 hpd2 hv hd
        have hstep : ∀ (a b : Char) (r : Str), collapseWs (a :: b :: r) =
            if isSpc a then
              (if isSpc b then collapseWs (b :: r) else ' ' :: collapseWs (b :: r))
            else a :: collapseWs (b :: r) := fun a b r => rfl
        simp only [List.cons_append] at hrec ⊢
        by_cases hs : isSpc c = true
        · have hcsp : c = ' ' := goodChar_spc c hg.1 hs
          have hes : isSpc e = false := by
            by_cases hse : isSpc e = true
            · exfalso
              have he2 : e = ' ' := goodChar_spc e hge.1 hse
              subst hcsp he2
              simp only [List.cons_append] at hpd
              rw [hasSub] at hpd
              simp [List.isPrefixOf] at hpd
            · simpa using hse
          rw [hstep, if_pos hs, if_neg (by rw [hes]; exact Bool.false_ne_true), hrec, hcsp]
        · rw [hstep, if_neg hs, hrec]

theorem stripWs_trail (t : Str) (h1 : headNotSpc t = true)
    (h2 : headNotSpc t.reverse = true) : stripWs (t ++ [' ']) = t := by
  cases t with
  | nil => rfl
  | cons c t2 =>
    have hc : isSpc c = false := by
      rw [headNotSpc] at h1
      simpa using h1
    unfold stripWs dropLead
    rw [List.cons_append, List.dropWhile_cons, if_neg (by rw [hc]; exact Bool.false_ne_true)]
    have hrev : (c :: (t2 ++ [' '])).reverse = ' ' :: (t2.reverse ++ [c]) := by
      simp
    rw [hrev, List.dropWhile_cons, if_pos (by decide)]
    have h2r : headNotSpc (t2.reverse ++ [c]) = true := by
      have : (c :: t2).reverse = t2.reverse ++ [c] := by simp
      rw [this] at h2
      exact h2
    rw [dropWhile_id isSpc (t2.reverse ++ [c])]
    · simp
    · intro d z he
      rw [he] at h2r
      rw [headNotSpc] at h2r
      simpa using h2r

theorem dotsSafe_append_dot : ∀ (p v : Str), '.' ∉ p → boundaryOk v = true → '.' ∉ v →
    dotsSafe (p ++ '.' :: v) = true := by
  intro p
  induction p with
  | nil =>
    intro v hp hb hv
    have h1 : dotsSafe ('.' :: v) = (boundaryOk v && dotsSafe v) := rfl
    simp only [List.nil_append, h1, hb, dotsSafe_of_no_dot v hv, Bool.and_self]
  | cons c p2 ih =>
    intro v hp hb hv
    rw [List.cons_append, dotsSafe.eq_def]
    split
    · rfl
    · rename_i rest heq
      injection heq with hq1 hq2
      exact absurd (hq1 ▸ List.mem_cons_self c p2) hp
    · rename_i c2 rest hne heq
      injection heq with hq1 hq2
      rw [← hq2]
      exact ih v (fun hm => hp (List.mem_cons_of_mem _ hm)) hb hv

theorem cleanL_dot (p v : Str) (h : DotCtx p v = true) :
    cleanL (p ++ '.' :: v) = p ++ v := by
  simp only [DotCtx, Bool.and_eq_true, Bool.not_eq_true', Bool.or_eq_true] at h
  obtain ⟨⟨⟨⟨⟨⟨⟨⟨⟨⟨⟨hpne, hpg⟩, hph⟩, hpd⟩, hvg⟩, hvh⟩, hrev⟩, hdbl⟩, hand⟩, hstatio⟩, hsta⟩,
    hstn⟩ := h
  have hpn : p ≠ [] := by
    intro he
    subst he
    simp at hpne
  have hvshape : v = [] ∨ ∃ v2, v = ' ' :: v2 := by
    rcases hvh with hvh | hvh
    · exact Or.inl (by simpa using hvh)
    · cases v with
      | nil => exact Or.inl rfl
      | cons c v2 =>
        simp only [List.head?_cons, beq_iff_eq, Option.some_inj] at hvh
        exact Or.inr ⟨v2, by rw [hvh]⟩
  have hbv : boundaryOk v = true := by
    rcases hvshape with he | ⟨v2, he⟩ <;> subst he
    · rfl
    · rw [show boundaryOk (' ' :: v2) = !isWordChar ' ' from rfl]
      decide
  have hAok : (p ++ '.' :: v).all okChar = true := by
    rw [List.all_append, List.all_cons, all_ok_of_good p hpg, all_ok_of_good v hvg]
    rfl
  have hhA : headNotSpc (p ++ '.' :: v) = true := headNotSpc_append p _ hpn hph
  have hdsA : dotsSafe (p ++ '.' :: v) = true :=
    dotsSafe_append_dot p v (all_good_ne p hpg '.' (by decide)) hbv
      (all_good_ne v hvg '.' (by decide))
  have hconn : connA [] false (p ++ '.' :: v) = p ++ '.' :: v := by
    have := (connA_id_aux (p ++ '.' :: v).length (p ++ '.' :: v) [] le_rfl
      (by simpa using hAok) (by simpa using hdbl) (by simpa using hand) (Or.inl rfl)).1
    simpa using this
  simp only [cleanL]
  rw [map_toLower_ok _ hAok, stripWs_id _ hhA hrev, stripQ_ok _ hAok, stripWs_id _ hhA hrev,
    subStatioA_id false _ hstatio, subStaA_id false _ hsta, subStnA_id false _ hstn,
    subAveA_id (p ++ '.' :: v).length false _ le_rfl hdsA,
    subRdA_id (p ++ '.' :: v).length false _ le_rfl hdsA,
    subBlvdA_id (p ++ '.' :: v).length false _ le_rfl hdsA,
    subStA_id (p ++ '.' :: v).length false _ le_rfl hdsA,
    subDrA_id (p ++ '.' :: v).length false _ le_rfl hdsA,
    hconn, subPunct_dot p v hpg hvg]
  rcases hvshape with he | ⟨v2, he⟩ <;> subst he
  · rw [show p ++ ' ' :: ([] : Str) = p ++ [' '] from rfl,
      collapseWs_id (p ++ [' '])
        (by rw [List.all_append, hpg]; rfl) hpd,
      stripWs_trail p hph (lastNotSpc_of_nodbl p hpg hpd)]
    simp
  · have hv2g : v2.all goodChar = true := by
      simp only [List.all_cons, Bool.and_eq_true] at hvg
      exact hvg.2
    have hdv : hasSub [' ', ' '] (' ' :: v2) = false := by
      have := hasSub_drop_prefix [' ', ' '] (p ++ ['.']) (' ' :: v2)
        (by simpa [List.append_assoc] using hdbl)
      exact this
    rw [show p ++ ' ' :: ' ' :: v2 = p ++ ' ' :: ' ' :: v2 from rfl,
      collapse_mid_id p.length p v2 le_rfl hpg hpd hv2g hdv]
    have hv2ne : v2 ≠ [] := by
      intro he2
      subst he2
      rw [show p ++ '.' :: [' '] = (p ++ ['.']) ++ [' '] from by simp] at hrev
      rw [List.reverse_append] at hrev
      simp [headNotSpc] at hrev
      exact absurd hrev (by decide)
    have hr1 : headNotSpc (p ++ ' ' :: v2).reverse = headNotSpc v2.reverse := by
      rw [show p ++ ' ' :: v2 = (p ++ [' ']) ++ v2 from by simp]
      exact headNotSpc_rev_append (p ++ [' ']) v2 hv2ne
    have hr2 : headNotSpc (p ++ '.' :: ' ' :: v2).reverse = headNotSpc v2.reverse := by
      rw [show p ++ '.' :: ' ' :: v2 = (p ++ ['.', ' ']) ++ v2 from by simp]
      exact headNotSpc_rev_append (p ++ ['.', ' ']) v2 hv2ne
    rw [stripWs_id _ (headNotSpc_append p _ hpn hph) (by rw [hr1, ← hr2]; exact hrev)]

theorem cleanL_fixed (t : Str) (h : Good t = true) : cleanL t = t := by
  simp only [Good, Bool.and_eq_true, Bool.not_eq_true'] at h
  obtain ⟨⟨⟨⟨⟨⟨⟨hg, hdbl⟩, hh⟩, hr⟩, hstatio⟩, hsta⟩, hstn⟩, hand⟩ := h
  have hdot : '.' ∉ t := all_good_ne t hg '.' (by decide)
  have hds : dotsSafe t = true := dotsSafe_of_no_dot t hdot
  have hconn : connA [] false t = t := by
    have := (connA_id_aux t.length t [] le_rfl (by simpa using all_ok_of_good t hg)
      (by simpa using hdbl) (by simpa using hand) (Or.inl rfl)).1
    simpa using this
  simp only [cleanL]
  rw [map_toLower_id t hg, stripWs_id t hh hr, stripQ_id t hg, stripWs_id t hh hr,
    subStatioA_id false t hstatio, subStaA_id false t hsta, subStnA_id false t hstn,
    subAveA_id t.length false t le_rfl hds, subRdA_id t.length false t le_rfl hds,
    subBlvdA_id t.length false t le_rfl hds, subStA_id t.length false t le_rfl hds,
    subDrA_id t.length false t le_rfl hds, hconn, subPunct_id t hg,
    collapseWs_id t hg hdbl, stripWs_id t hh hr]


example : cleanL (strL "king ave" ++ '.' :: []) = strL "king ave" ++ [] :=
  cleanL_dot (strL "king ave") [] (by decide)

example : cleanL (strL "main st" ++ '.' :: strL " station") = strL "main st" ++ strL " station" :=
  cleanL_dot (strL "main st") (strL " station") (by decide)

theorem subStaA_pass (prevW : Bool) (w : Str) : ∀ rest : Str,
    noStaHit prevW w = true →
    (w = [] → prevW = false) → (w ≠ [] → w.getLast? = some ' ') →
    subStaA prevW (w ++ rest) = w ++ subStaA false rest := by
  induction prevW, w using noStaHit.induct with
  | case1 x =>
    intro rest _ he _
    rw [he rfl, List.nil_append, List.nil_append]
  | case2 prevW rest2 hguard =>
    intro rest hN _ _
    exfalso
    rw [noStaHit, if_pos hguard] at hN
    exact Bool.false_ne_true hN
  | case3 prevW rest2 hguard ih =>
    intro rest hN he hl
    rw [noStaHit, if_neg hguard] at hN
    cases rest2 with
    | nil =>
      exfalso
      have hx := hl (List.cons_ne_nil _ _)
      rw [List.getLast?_cons_cons, List.getLast?_cons_cons, List.getLast?_singleton] at hx
      exact absurd (Option.some_inj.mp hx) (by decide)
    | cons d w5 =>
      have hbeq : boundaryOk (d :: (w5 ++ rest)) = boundaryOk (d :: w5) := rfl
      simp only [List.cons_append]
      rw [subStaA, if_neg (by rw [hbeq]; exact hguard)]
      have hx := hl (List.cons_ne_nil _ _)
      have hlast2 : ('t' :: 'a' :: d :: w5).getLast? = some ' ' := by
        rw [← List.getLast?_cons_cons (a := 's')]
        exact hx
      have hrec := ih rest hN (fun hh => absurd hh (List.cons_ne_nil _ _)) (fun _ => hlast2)
      simp only [List.cons_append] at hrec
      rw [hrec]
  | case4 x c rest2 hne ih =>
    intro rest hN he hl
    have hlast : (c :: rest2).getLast? = some ' ' := hl (List.cons_ne_nil _ _)
    have hs : subStaA x (c :: (rest2 ++ rest)) = c :: subStaA (isWordChar c) (rest2 ++ rest) := by
      rw [subStaA.eq_def]
      split
      · rename_i heq
        exact absurd heq (List.cons_ne_nil _ _)
      · rename_i heq
        exfalso
        injection heq with h1 h2
        cases rest2 with
        | nil =>
          simp only [List.getLast?_singleton, Option.some_inj] at hlast
          rw [h1] at hlast
          exact absurd hlast (by decide)
        | cons e w3 =>
          simp only [List.cons_append] at h2
          injection h2 with g1 g2
          cases w3 with
          | nil =>
            rw [List.getLast?_cons_cons, List.getLast?_singleton] at hlast
            rw [g1] at hlast
            exact absurd (Option.some_inj.mp hlast) (by decide)
          | cons f w4 =>
            simp only [List.cons_append] at g2
            injection g2 with g3 g4
            exact hne w4 h1 (by rw [g1, g3])
      · rename_i heq
        injection heq with h1 h2
        rw [h1, h2]
    have hn2 : noStaHit x (c :: rest2) = noStaHit (isWordChar c) rest2 := by
      rw [noStaHit.eq_def]
      split
      · rename_i heq
        exact absurd heq (List.cons_ne_nil _ _)
      · rename_i heq
        exfalso
        injection heq with h1 h2
        exact hne _ h1 h2
      · rename_i heq
        injection heq with h1 h2
        rw [h1, h2]
    rw [hn2] at hN
    have he2 : rest2 = [] → isWordChar c = false := by
      intro hh
      subst hh
      simp only [List.getLast?_singleton, Option.some_inj] at hlast
      subst hlast
      decide
    have hl2 : rest2 ≠ [] → rest2.getLast? = some ' ' := by
      intro hh
      cases rest2 with
      | nil => exact absurd rfl hh
      | cons e w3 =>
        rw [← List.getLast?_cons_cons (a := c)]
        exact hlast
    rw [List.cons_append, hs, ih rest hN he2 hl2, List.cons_append]

theorem subStnA_pass (prevW : Bool) (w : Str) : ∀ rest : Str,
    noStnHit prevW w = true →
    (w = [] → prevW = false) → (w ≠ [] → w.getLast? = some ' ') →
    subStnA prevW (w ++ rest) = w ++ subStnA false rest := by
  induction prevW, w using noStnHit.induct with
  | case1 x =>
    intro rest _ he _
    rw [he rfl, List.nil_append, List.nil_append]
  | case2 prevW rest2 hguard =>
    intro rest hN _ _
    exfalso
    rw [noStnHit, if_pos hguard] at hN
    exact Bool.false_ne_true hN
  | case3 prevW rest2 hguard ih =>
    intro rest hN he hl
    rw [noStnHit, if_neg hguard] at hN
    cases rest2 with
    | nil =>
      exfalso
      have hx := hl (List.cons_ne_nil _ _)
      rw [List.getLast?_cons_cons, List.getLast?_cons_cons, List.getLast?_singleton] at hx
      exact absurd (Option.some_inj.mp hx) (by decide)
    | cons d w5 =>
      have hbeq : boundaryOk (d :: (w5 ++ rest)) = boundaryOk (d :: w5) := rfl
      simp only [List.cons_append]
      rw [subStnA, if_neg (by rw [hbeq]; exact hguard)]
      have hx := hl (List.cons_ne_nil _ _)
      have hlast2 : ('t' :: 'n' :: d :: w5).getLast? = some ' ' := by
        rw [← List.getLast?_cons_cons (a := 's')]
        exact hx
      have hrec := ih rest hN (fun hh => absurd hh (List.cons_ne_nil _ _)) (fun _ => hlast2)
      simp only [List.cons_append] at hrec
      rw [hrec]
  | case4 x c rest2 hne ih =>
    intro rest hN he hl
    have hlast : (c :: rest2).getLast? = some ' ' := hl (List.cons_ne_nil _ _)
    have hs : subStnA x (c :: (rest2 ++ rest)) = c :: subStnA (isWordChar c) (rest2 ++ rest) := by
      rw [subStnA.eq_def]
      split
      · rename_i heq
        exact absurd heq (List.cons_ne_nil _ _)
      · rename_i heq
        exfalso
        injection heq with h1 h2
        cases rest2 with
        | nil =>
          simp only [List.getLast?_singleton, Option.some_inj] at hlast
          rw [h1] at hlast
          exact absurd hlast (by decide)
        | cons e1 w1 =>
          simp only [List.cons_append] at h2
          injection h2 with g1 g2
          cases w1 with
          | nil =>
            rw [List.getLast?_cons_cons, List.getLast?_singleton] at hlast
            rw [g1] at hlast
            exact absurd (Option.some_inj.mp hlast) (by decide)
          | cons e2 w2 =>
            simp only [List.cons_append] at g2
            injection g2 with g3 g4
            exact hne w2 h1 (by rw [g1, g3])
      · rename_i heq
        injection heq with h1 h2
        rw [h1, h2]
    have hn2 : noStnHit x (c :: rest2) = noStnHit (isWordChar c) rest2 := by
      rw [noStnHit.eq_def]
      split
      · rename_i heq
        exact absurd heq (List.cons_ne_nil _ _)
      · rename_i heq
        exfalso
        injection heq with h1 h2
        exact hne _ h1 h2
      · rename_i heq
        injection heq with h1 h2
        rw [h1, h2]
    rw [hn2] at hN
    have he2 : rest2 = [] → isWordChar c = false := by
      intro hh
      subst hh
      simp only [List.getLast?_singleton, Option.some_inj] at hlast
      subst hlast
      decide
    have hl2 : rest2 ≠ [] → rest2.getLast? = some ' ' := by
      intro hh
      cases rest2 with
      | nil => exact absurd rfl hh
      | cons e w3 =>
        rw [← List.getLast?_cons_cons (a := c)]
        exact hlast
    rw [List.cons_append, hs, ih rest hN he2 hl2, List.cons_append]

theorem subStatioA_pass (prevW : Bool) (w : Str) : ∀ rest : Str,
    noStatioHit prevW w = true →
    (w = [] → prevW = false) → (w ≠ [] → w.getLast? = some ' ') →
    subStatioA prevW (w ++ rest) = w ++ subStatioA false rest := by
  induction prevW, w using noStatioHit.induct with
  | case1 x =>
    intro rest _ he _
    rw [he rfl, List.nil_append, List.nil_append]
  | case2 prevW rest2 hguard =>
    intro rest hN _ _
    exfalso
    rw [noStatioHit, if_pos hguard] at hN
    exact Bool.false_ne_true hN
  | case3 prevW rest2 hguard ih =>
    intro rest hN he hl
    rw [noStatioHit, if_neg hguard] at hN
    cases rest2 with
    | nil =>
      exfalso
      have hx := hl (List.cons_ne_nil _ _)
      rw [List.getLast?_cons_cons, List.getLast?_cons_cons, List.getLast?_cons_cons, List.getLast?_cons_cons, List.getLast?_cons_cons, List.getLast?_singleton] at hx
      exact absurd (Option.some_inj.mp hx) (by decide)
    | cons d w5 =>
      have hbeq : boundaryOk (d :: (w5 ++ rest)) = boundaryOk (d :: w5) := rfl
      simp only [List.cons_append]
      rw [subStatioA, if_neg (by rw [hbeq]; exact hguard)]
      have hx := hl (List.cons_ne_nil _ _)
      have hlast2 : ('t' :: 'a' :: 't' :: 'i' :: 'o' :: d :: w5).getLast? = some ' ' := by
        rw [← List.getLast?_cons_cons (a := 's')]
        exact hx
      have hrec := ih rest hN (fun hh => absurd hh (List.cons_ne_nil _ _)) (fun _ => hlast2)
      simp only [List.cons_append] at hrec
      rw [hrec]
  | case4 x c rest2 hne ih =>
    intro rest hN he hl
    have hlast : (c :: rest2).getLast? = some ' ' := hl (List.cons_ne_nil _ _)
    have hs : subStatioA x (c :: (rest2 ++ rest)) = c :: subStatioA (isWordChar c) (rest2 ++ rest) := by
      rw [subStatioA.eq_def]
      split
      · rename_i heq
        exact absurd heq (List.cons_ne_nil _ _)
      · rename_i heq
        exfalso
        injection heq with h1 h2
        cases rest2 with
        | nil =>
          simp only [List.getLast?_singleton, Option.some_inj] at hlast
          rw [h1] at hlast
          exact absurd hlast (by decide)
        | cons e1 w1 =>
          simp only [List.cons_append] at h2
          injection h2 with g1 g2
          cases w1 with
          | nil =>
            rw [List.getLast?_cons_cons, List.getLast?_singleton] at hlast
            rw [g1] at hlast
            exact absurd (Option.some_inj.mp hlast) (by decide)
          | cons e2 w2 =>
            simp only [List.cons_append] at g2
            injection g2 with g3 g4
            cases w2 with
            | nil =>
              rw [List.getLast?_cons_cons, List.getLast?_cons_cons, List.getLast?_singleton] at hlast
              rw [g3] at hlast
              exact absurd (Option.some_inj.mp hlast) (by decide)
            | cons e3 w3 =>
              simp only [List.cons_append] at g4
              injection g4 with g5 g6
              cases w3 with
              | nil =>
                rw [List.getLast?_cons_cons, List.getLast?_cons_cons, List.getLast?_cons_cons, List.getLast?_singleton] at hlast
                rw [g5] at hlast
                exact absurd (Option.some_inj.mp hlast) (by decide)
              | cons e4 w4 =>
                simp only [List.cons_append] at g6
                injection g6 with g7 g8
                cases w4 with
                | nil =>
                  rw [List.getLast?_cons_cons, List.getLast?_cons_cons, List.getLast?_cons_cons, List.getLast?_cons_cons, List.getLast?_singleton] at hlast
                  rw [g7] at hlast
                  exact absurd (Option.some_inj.mp hlast) (by decide)
                | cons e5 w5 =>
                  simp only [List.cons_append] at g8
                  injection g8 with g9 g10
                  exact hne w5 h1 (by rw [g1, g3, g5, g7, g9])
      · rename_i heq
        injection heq with h1 h2
        rw [h1, h2]
    have hn2 : noStatioHit x (c :: rest2) = noStatioHit (isWordChar c) rest2 := by
      rw [noStatioHit.eq_def]
      split
      · rename_i heq
        exact absurd heq (List.cons_ne_nil _ _)
      · rename_i heq
        exfalso
        injection heq with h1 h2
        exact hne _ h1 h2
      · rename_i heq
        injection heq with h1 h2
        rw [h1, h2]
    rw [hn2] at hN
    have he2 : rest2 = [] → isWordChar c = false := by
      intro hh
      subst hh
      simp only [List.getLast?_singleton, Option.some_inj] at hlast
      subst hlast
      decide
    have hl2 : rest2 ≠ [] → rest2.getLast? = some ' ' := by
      intro hh
      cases rest2 with
      | nil => exact absurd rfl hh
      | cons e w3 =>
        rw [← List.getLast?_cons_cons (a := c)]
        exact hlast
    rw [List.cons_append, hs, ih rest hN he2 hl2, List.cons_append]

theorem cleanL_sta (u v : Str) (h : staCtx u v = true) :
    cleanL (u ++ strL "sta" ++ v) = u ++ stationW ++ v := by
  simp only [staCtx, Bool.and_eq_true, Bool.or_eq_true] at h
  obtain ⟨⟨⟨⟨⟨⟨⟨⟨hhA, hrA⟩, hgA⟩, hu⟩, hbv⟩, hNu⟩, hNv⟩, hstatio⟩, hB⟩ := h
  simp only [Good, Bool.and_eq_true, Bool.not_eq_true'] at hB
  obtain ⟨⟨⟨⟨⟨⟨⟨hgB, hdblB⟩, hhB⟩, hrB⟩, hstatioB⟩, hstaB⟩, hstnB⟩, handB⟩ := hB
  have hul : u ≠ [] → u.getLast? = some ' ' := by
    intro hne
    rcases hu with hu | hu
    · exact absurd (by simpa using hu) hne
    · exact eq_of_beq hu
  have hfire : subStaA false ('s' :: 't' :: 'a' :: v) = stationW ++ v := by
    rw [subStaA, if_pos (by simp only [Bool.not_false, Bool.true_and]; exact hbv),
      subStaA_id true v hNv]
  have hA3 : (u ++ strL "sta") ++ v = u ++ ('s' :: 't' :: 'a' :: v) := by
    rw [List.append_assoc]
    rfl
  have hdotB : '.' ∉ (u ++ stationW ++ v) := all_good_ne _ hgB '.' (by decide)
  have hdsB : dotsSafe (u ++ stationW ++ v) = true := dotsSafe_of_no_dot _ hdotB
  have hconnB : connA [] false (u ++ stationW ++ v) = u ++ stationW ++ v := by
    have := (connA_id_aux (u ++ stationW ++ v).length (u ++ stationW ++ v) [] le_rfl
      (by simpa using all_ok_of_good _ hgB) (by simpa using hdblB) (by simpa using handB)
      (Or.inl rfl)).1
    simpa using this
  simp only [cleanL]
  rw [map_toLower_id _ hgA, stripWs_id _ hhA hrA, stripQ_id _ hgA, stripWs_id _ hhA hrA,
    subStatioA_id false _ hstatio, hA3,
    subStaA_pass false u ('s' :: 't' :: 'a' :: v) hNu (fun _ => rfl) hul, hfire,
    ← List.append_assoc,
    subStnA_id false _ hstnB,
    subAveA_id (u ++ stationW ++ v).length false _ le_rfl hdsB,
    subRdA_id (u ++ stationW ++ v).length false _ le_rfl hdsB,
    subBlvdA_id (u ++ stationW ++ v).length false _ le_rfl hdsB,
    subStA_id (u ++ stationW ++ v).length false _ le_rfl hdsB,
    subDrA_id (u ++ stationW ++ v).length false _ le_rfl hdsB,
    hconnB, subPunct_id _ hgB, collapseWs_id _ hgB hdblB, stripWs_id _ hhB hrB]

theorem cleanL_stn (u v : Str) (h : stnCtx u v = true) :
    cleanL (u ++ strL "stn" ++ v) = u ++ stationW ++ v := by
  simp only [stnCtx, Bool.and_eq_true, Bool.or_eq_true] at h
  obtain ⟨⟨⟨⟨⟨⟨⟨⟨⟨hhA, hrA⟩, hgA⟩, hu⟩, hbv⟩, hNu⟩, hNv⟩, hstatio⟩, hsta⟩, hB⟩ := h
  simp only [Good, Bool.and_eq_true, Bool.not_eq_true'] at hB
  obtain ⟨⟨⟨⟨⟨⟨⟨hgB, hdblB⟩, hhB⟩, hrB⟩, hstatioB⟩, hstaB⟩, hstnB⟩, handB⟩ := hB
  have hul : u ≠ [] → u.getLast? = some ' ' := by
    intro hne
    rcases hu with hu | hu
    · exact absurd (by simpa using hu) hne
    · exact eq_of_beq hu
  have hfire : subStnA false ('s' :: 't' :: 'n' :: v) = stationW ++ v := by
    rw [subStnA, if_pos (by simp only [Bool.not_false, Bool.true_and]; exact hbv),
      subStnA_id true v hNv]
  have hA3 : (u ++ strL "stn") ++ v = u ++ ('s' :: 't' :: 'n' :: v) := by
    rw [List.append_assoc]
    rfl
  have hdotB : '.' ∉ (u ++ stationW ++ v) := all_good_ne _ hgB '.' (by decide)
  have hdsB : dotsSafe (u ++ stationW ++ v) = true := dotsSafe_of_no_dot _ hdotB
  have hconnB : connA [] false (u ++ stationW ++ v) = u ++ stationW ++ v := by
    have := (connA_id_aux (u ++ stationW ++ v).length (u ++ stationW ++ v) [] le_rfl
      (by simpa using all_ok_of_good _ hgB) (by simpa using hdblB) (by simpa using handB)
      (Or.inl rfl)).1
    simpa using this
  simp only [cleanL]
  rw [map_toLower_id _ hgA, stripWs_id _ hhA hrA, stripQ_id _ hgA, stripWs_id _ hhA hrA,
    subStatioA_id false _ hstatio, subStaA_id false _ hsta, hA3,
    subStnA_pass false u ('s' :: 't' :: 'n' :: v) hNu (fun _ => rfl) hul, hfire,
    ← List.append_assoc,
    subAveA_id (u ++ stationW ++ v).length false _ le_rfl hdsB,
    subRdA_id (u ++ stationW ++ v).length false _ le_rfl hdsB,
    subBlvdA_id (u ++ stationW ++ v).length false _ le_rfl hdsB,
    subStA_id (u ++ stationW ++ v).length false _ le_rfl hdsB,
    subDrA_id (u ++ stationW ++ v).length false _ le_rfl hdsB,
    hconnB, subPunct_id _ hgB, collapseWs_id _ hgB hdblB, stripWs_id _ hhB hrB]

theorem cleanL_statio (u v : Str) (h : statioCtx u v = true) :
    cleanL (u ++ strL "statio" ++ v) = u ++ stationW ++ v := by
  simp only [statioCtx, Bool.and_eq_true, Bool.or_eq_true] at h
  obtain ⟨⟨⟨⟨⟨⟨⟨hhA, hrA⟩, hgA⟩, hu⟩, hbv⟩, hNu⟩, hNv⟩, hB⟩ := h
  simp only [Good, Bool.and_eq_true, Bool.not_eq_true'] at hB
  obtain ⟨⟨⟨⟨⟨⟨⟨hgB, hdblB⟩, hhB⟩, hrB⟩, hstatioB⟩, hstaB⟩, hstnB⟩, handB⟩ := hB
  have hul : u ≠ [] → u.getLast? = some ' ' := by
    intro hne
    rcases hu with hu | hu
    · exact absurd (by simpa using hu) hne
    · exact eq_of_beq hu
  have hfire : subStatioA false ('s' :: 't' :: 'a' :: 't' :: 'i' :: 'o' :: v) =
      stationW ++ v := by
    rw [subStatioA, if_pos (by simp only [Bool.not_false, Bool.true_and]; exact hbv),
      subStatioA_id true v hNv]
  have hA3 : (u ++ strL "statio") ++ v = u ++ ('s' :: 't' :: 'a' :: 't' :: 'i' :: 'o' :: v) := by
    rw [List.append_assoc]
    rfl
  have hdotB : '.' ∉ (u ++ stationW ++ v) := all_good_ne _ hgB '.' (by decide)
  have hdsB : dotsSafe (u ++ stationW ++ v) = true := dotsSafe_of_no_dot _ hdotB
  have hconnB : connA [] false (u ++ stationW ++ v) = u ++ stationW ++ v := by
    have := (connA_id_aux (u ++ stationW ++ v).length (u ++ stationW ++ v) [] le_rfl
      (by simpa using all_ok_of_good _ hgB) (by simpa using hdblB) (by simpa using handB)
      (Or.inl rfl)).1
    simpa using this
  simp only [cleanL]
  rw [map_toLower_id _ hgA, stripWs_id _ hhA hrA, stripQ_id _ hgA, stripWs_id _ hhA hrA, hA3,
    subStatioA_pass false u ('s' :: 't' :: 'a' :: 't' :: 'i' :: 'o' :: v) hNu
      (fun _ => rfl) hul, hfire,
    ← List.append_assoc,
    subStaA_id false _ hstaB, subStnA_id false _ hstnB,
    subAveA_id (u ++ stationW ++ v).length false _ le_rfl hdsB,
    subRdA_id (u ++ stationW ++ v).length false _ le_rfl hdsB,
    subBlvdA_id (u ++ stationW ++ v).length false _ le_rfl hdsB,
    subStA_id (u ++ stationW ++ v).length false _ le_rfl hdsB,
    subDrA_id (u ++ stationW ++ v).length false _ le_rfl hdsB,
    hconnB, subPunct_id _ hgB, collapseWs_id _ hgB hdblB, stripWs_id _ hhB hrB]

example : cleanL (strL "king " ++ strL "sta" ++ []) = strL "king " ++ stationW ++ [] :=
  cleanL_sta (strL "king ") [] (by decide)

example : cleanL ([] ++ strL "stn" ++ strL " x") = [] ++ stationW ++ strL " x" :=
  cleanL_stn [] (strL " x") (by decide)

example : cleanL (strL "pioneer village " ++ strL "statio" ++ []) =
    strL "pioneer village " ++ stationW ++ [] :=
  cleanL_statio (strL "pioneer village ") [] (by decide)

/-- Claim C5 (amended): the normalizer is not idempotent in general; it is
idempotent for every input whose normalized form consists of lower-case word
characters separated by single spaces, trimmed, with no standalone
`statio`/`sta`/`stn` occurrence and no space-delimited `and`. -/
theorem claim_C5_normalizer_idempotence (s : Str) (h : Good (cleanL s) = true) :
    cleanL (cleanL s) = cleanL s := cleanL_fixed (cleanL s) h

/-- Witness for claim C5 at a concrete input whose normalized form is in
normal form. -/
theorem claim_C5_normalizer_idempotence_witness :
    Good (cleanL (strL "King Stn")) = true ∧
      cleanL (cleanL (strL "King Stn")) = cleanL (strL "King Stn") :=
  ⟨by decide, claim_C5_normalizer_idempotence (strL "King Stn") (by decide)⟩

/-- Counterexample to claim C5 as stated: `normalize` is not idempotent.
`clean_location_string("x.and.y") = "x and y"` (the connector is hidden by
punctuation on the first pass), but a second application rewrites it to
`"x at y"`. -/
theorem claim_C5_normalizer_idempotence_counterexample :
    ¬ cleanL (cleanL (strL "x.and.y")) = cleanL (strL "x.and.y") := by decide

/-- Claim C6 (amended): at word boundaries the normalizer canonicalizes the
street-type abbreviations to their DOTLESS SHORT forms, not to unabbreviated
words — for every decomposition of the input as `u ++ "ave." ++ v` with a
clean surrounding context (`DotCtx`), the output is `u ++ "ave" ++ v` (never
`avenue`), and likewise for `rd.`, `blvd.`, `st.`, `dr.` — while the station
variants `sta`, `stn` and `statio` standing as whole tokens in a clean
context are expanded to `station` as claimed. -/
theorem claim_C6_abbreviation_rewrites :
    (∀ u v : Str, DotCtx (u ++ strL "ave") v = true →
      cleanL (u ++ strL "ave." ++ v) = u ++ strL "ave" ++ v) ∧
    (∀ u v : Str, DotCtx (u ++ strL "rd") v = true →
      cleanL (u ++ strL "rd." ++ v) = u ++ strL "rd" ++ v) ∧
    (∀ u v : Str, DotCtx (u ++ strL "blvd") v = true →
      cleanL (u ++ strL "blvd." ++ v) = u ++ strL "blvd" ++ v) ∧
    (∀ u v : Str, DotCtx (u ++ strL "st") v = true →
      cleanL (u ++ strL "st." ++ v) = u ++ strL "st" ++ v) ∧
    (∀ u v : Str, DotCtx (u ++ strL "dr") v = true →
      cleanL (u ++ strL "dr." ++ v) = u ++ strL "dr" ++ v) ∧
    (∀ u v : Str, staCtx u v = true →
      cleanL (u ++ strL "sta" ++ v) = u ++ strL "station" ++ v) ∧
    (∀ u v : Str, stnCtx u v = true →
      cleanL (u ++ strL "stn" ++ v) = u ++ strL "station" ++ v) ∧
    (∀ u v : Str, statioCtx u v = true →
      cleanL (u ++ strL "statio" ++ v) = u ++ strL "station" ++ v) := by
  refine ⟨?_, ?_, ?_, ?_, ?_, ?_, ?_, ?_⟩
  · intro u v h
    have e1 : u ++ strL "ave." ++ v = (u ++ strL "ave") ++ '.' :: v := by
      rw [show strL "ave." = strL "ave" ++ ['.'] from rfl]
      simp [List.append_assoc]
    rw [e1, cleanL_dot (u ++ strL "ave") v h]
  · intro u v h
    have e1 : u ++ strL "rd." ++ v = (u ++ strL "rd") ++ '.' :: v := by
      rw [show strL "rd." = strL "rd" ++ ['.'] from rfl]
      simp [List.append_assoc]
    rw [e1, cleanL_dot (u ++ strL "rd") v h]
  · intro u v h
    have e1 : u ++ strL "blvd." ++ v = (u ++ strL "blvd") ++ '.' :: v := by
      rw [show strL "blvd." = strL "blvd" ++ ['.'] from rfl]
      simp [List.append_assoc]
    rw [e1, cleanL_dot (u ++ strL "blvd") v h]
  · intro u v h
    have e1 : u ++ strL "st." ++ v = (u ++ strL "st") ++ '.' :: v := by
      rw [show strL "st." = strL "st" ++ ['.'] from rfl]
      simp [List.append_assoc]
    rw [e1, cleanL_dot (u ++ strL "st") v h]
  · intro u v h
    have e1 : u ++ strL "dr." ++ v = (u ++ strL "dr") ++ '.' :: v := by
      rw [show strL "dr." = strL "dr" ++ ['.'] from rfl]
      simp [List.append_assoc]
    rw [e1, cleanL_dot (u ++ strL "dr") v h]
  · intro u v h
    rw [show (strL "station" : Str) = stationW from rfl]
    exact cleanL_sta u v h
  · intro u v h
    rw [show (strL "station" : Str) = stationW from rfl]
    exact cleanL_stn u v h
  · intro u v h
    rw [show (strL "station" : Str) = stationW from rfl]
    exact cleanL_statio u v h

/-- Witness for claim C6 at concrete contexts: `king ave.` normalizes to
`king ave` (not `king avenue`) and `king sta` expands to `king station`. -/
theorem claim_C6_abbreviation_rewrites_witness :
    (DotCtx (strL "king " ++ strL "ave") [] = true ∧
      cleanL (strL "king " ++ strL "ave." ++ []) = strL "king " ++ strL "ave" ++ []) ∧
    (staCtx (strL "king ") [] = true ∧
      cleanL (strL "king " ++ strL "sta" ++ []) = strL "king " ++ strL "station" ++ []) :=
  ⟨⟨by decide, claim_C6_abbreviation_rewrites.1 (strL "king ") [] (by decide)⟩,
   ⟨by decide, claim_C6_abbreviation_rewrites.2.2.2.2.2.1 (strL "king ") [] (by decide)⟩⟩

/-- Counterexample to claim C6 as stated: `ave.` is not expanded to the
unabbreviated form `avenue`; the normalizer canonicalizes it to `ave`. -/
theorem claim_C6_abbreviation_rewrites_counterexample :
    cleanL (strL "ave.") = strL "ave" ∧ ¬ strL "ave" = strL "avenue" := by
  exact ⟨by decide, by decide⟩

theorem resolveClean_none_iff_failed (stops : List Stop) (loc : Str) :
    (resolveClean stops loc).1 = none ↔ (resolveClean stops loc).2 = Strat.failed := by
  unfold resolveClean
  by_cases he : loc.isEmpty
  · simp [he]
  · rw [if_neg he]
    cases h1 : exactLookup stops loc with
    | some c => simp
    | none =>
      cases h2 : stationStrategy stops loc with
      | some c => simp
      | none =>
        cases h3 : interStrategy stops loc with
        | some c => simp
        | none =>
          cases h4 : partialStrategy stops ((tokensOf loc).toFinset) with
          | some c => simp
          | none => simp

/-- Claim C4: resolution is a total function into the five tagged outcomes;
empty (or absent, hence empty after normalization) input resolves to the
`failed` outcome with coordinates absent, and in general coordinates are
absent exactly on the `failed` outcome. -/
theorem claim_C4_total_resolution (stops : List Stop) (raw : Option Str) :
    (cleanOpt raw = [] → resolveRaw stops raw = (none, Strat.failed)) ∧
    ((resolveRaw stops raw).1 = none ↔ (resolveRaw stops raw).2 = Strat.failed) ∧
    ((resolveRaw stops raw).2 = Strat.exact ∨ (resolveRaw stops raw).2 = Strat.station ∨
      (resolveRaw stops raw).2 = Strat.intersection ∨
      (resolveRaw stops raw).2 = Strat.partialTag ∨
      (resolveRaw stops raw).2 = Strat.failed) := by
  refine ⟨?_, ?_, ?_⟩
  · intro h
    unfold resolveRaw
    rw [h]
    rfl
  · exact resolveClean_none_iff_failed stops (cleanOpt raw)
  · cases (resolveRaw stops raw).2 <;> simp

/-- Witness for claim C4: the absent input resolves to `failed` with no
coordinates. -/
theorem claim_C4_total_resolution_witness :
    cleanOpt none = [] ∧ resolveRaw [] none = (none, Strat.failed) :=
  ⟨rfl, (claim_C4_total_resolution [] none).1 rfl⟩

/-- Claim C9 (amended): for a stop set containing a record named
`Main St Station`, resolving `main st station` returns the Exact outcome with
the arithmetic mean of the coordinates of all stops whose normalized name is
`main st station`; when that record is the only such stop, these are that
record's coordinates. -/
theorem claim_C9_main_st_station (stops : List Stop) (la lo : ℚ)
    (hmem : (⟨strL "Main St Station", la, lo⟩ : Stop) ∈ stops) :
    resolveRaw stops (some (strL "main st station")) =
      (some (avgPair ((exactGroup stops (strL "main st station")).map
        (fun r => (r.lat, r.lon)))), Strat.exact) ∧
    (exactGroup stops (strL "main st station") = [⟨strL "Main St Station", la, lo⟩] →
      resolveRaw stops (some (strL "main st station")) = (some (la, lo), Strat.exact)) := by
  have hmemg : (⟨strL "Main St Station", la, lo⟩ : Stop) ∈
      exactGroup stops (strL "main st station") := by
    refine List.mem_filter.mpr ⟨hmem, ?_⟩
    show decide (cleanL (strL "Main St Station") = strL "main st station") = true
    decide
  have hmain : resolveRaw stops (some (strL "main st station")) =
      (some (avgPair ((exactGroup stops (strL "main st station")).map
        (fun r => (r.lat, r.lon)))), Strat.exact) := by
    have hq : cleanOpt (some (strL "main st station")) = strL "main st station" := by decide
    unfold resolveRaw
    rw [hq]
    cases hg : exactGroup stops (strL "main st station") with
    | nil => rw [hg] at hmemg; cases hmemg
    | cons a l =>
      have hx : exactLookup stops (strL "main st station") =
          some (avgPair ((a :: l).map (fun r => (r.lat, r.lon)))) := by
        unfold exactLookup
        rw [hg]
      unfold resolveClean
      rw [if_neg (by decide), hx]
  refine ⟨hmain, fun hgr => ?_⟩
  rw [hmain, hgr]
  simp [avgPair, avgQ]

/-- Witness for claim C9 at a concrete one-stop set. -/
theorem claim_C9_main_st_station_witness :
    ((⟨strL "Main St Station", 5, 7⟩ : Stop) ∈ [(⟨strL "Main St Station", 5, 7⟩ : Stop)] ∧
      exactGroup [(⟨strL "Main St Station", 5, 7⟩ : Stop)] (strL "main st station") =
        [⟨strL "Main St Station", 5, 7⟩]) ∧
    resolveRaw [(⟨strL "Main St Station", 5, 7⟩ : Stop)] (some (strL "main st station")) =
      (some (5, 7), Strat.exact) :=
  ⟨⟨List.mem_cons_self _ _, by with_unfolding_all rfl⟩,
    (claim_C9_main_st_station [⟨strL "Main St Station", 5, 7⟩] 5 7
      (List.mem_cons_self _ _)).2 (by with_unfolding_all rfl)⟩

/-- Counterexample to claim C9 as stated: with two stops normalizing to
`main st station` at (0,0) and (2,2), resolution returns the averaged
coordinates (1,1), not the coordinates of the record named
`Main St Station`. -/
theorem claim_C9_main_st_station_counterexample :
    resolveRaw [⟨strL "Main St Station", 0, 0⟩, ⟨strL "Main St. Station", 2, 2⟩]
        (some (strL "main st station")) = (some (1, 1), Strat.exact) ∧
      ¬ ((1 : ℚ), (1 : ℚ)) = ((0 : ℚ), (0 : ℚ)) := by
  constructor
  · with_unfolding_all rfl
  · intro h
    have := congrArg Prod.fst h
    norm_num at this

/-- Claim C2 (amended): for each occurrence of the token `station` at position
`i > 0` in a normalized stop name, the builder inserts exactly ONE key — the
widest window of tokens `max(0,i-3) .. i` — not every suffix window of length
1 to 4; coordinates are accumulated per key and the lookup returns their
average. Membership in the index is equivalent to some stop contributing that
exact window. -/
theorem claim_C2_station_index (stops : List Stop) (cleaned k : Str) :
    (k ∈ stationWindows cleaned ↔
      hasSub stationW cleaned = true ∧
        ∃ i, (tokensOf cleaned).get? i = some stationW ∧ 0 < i ∧
          k = joinSp (((tokensOf cleaned).drop (i - 3)).take (i - (i - 3) + 1))) ∧
    ((stationLookup stops k).isSome = true ↔
      ∃ r ∈ stops, k ∈ stationWindows (cleanL r.name)) ∧
    (∀ v, stationLookup stops k = some v → v = avgPair (stationContribs stops k)) := by
  refine ⟨?_, ?_, ?_⟩
  · by_cases hs : hasSub stationW cleaned = true
    · simp only [stationWindows, hs, if_true]
      simp only [List.mem_filterMap, List.mem_range, true_and]
      constructor
      · rintro ⟨i, hlt, hif⟩
        by_cases hcond : (tokensOf cleaned).get? i = some stationW ∧ 0 < i
        · rw [if_pos hcond] at hif
          exact ⟨i, hcond.1, hcond.2, (Option.some_inj.mp hif).symm⟩
        · rw [if_neg hcond] at hif
          cases hif
      · rintro ⟨i, hget, hpos, hk⟩
        have hlen : i < (tokensOf cleaned).length := (List.get?_eq_some.mp hget).1
        exact ⟨i, hlen, by rw [if_pos ⟨hget, hpos⟩, hk]⟩
    · simp [stationWindows, hs]
  · have hiff : (stationLookup stops k).isSome = true ↔ stationContribs stops k ≠ [] := by
      unfold stationLookup
      cases hc : stationContribs stops k with
      | nil => simp
      | cons a l => simp
    rw [hiff]
    unfold stationContribs stationPairs
    constructor
    · intro h
      obtain ⟨c, hc⟩ := List.exists_mem_of_ne_nil _ h
      obtain ⟨p, hpf, hpc⟩ := List.mem_map.mp hc
      obtain ⟨hpp, hpk⟩ := List.mem_filter.mp hpf
      obtain ⟨r, hr, hpr⟩ := List.mem_flatMap.mp hpp
      obtain ⟨w, hw, hwp⟩ := List.mem_map.mp hpr
      subst hwp
      have hwk : w = k := of_decide_eq_true hpk
      exact ⟨r, hr, hwk ▸ hw⟩
    · rintro ⟨r, hr, hk⟩
      refine List.ne_nil_of_mem (List.mem_map.mpr ⟨(k, (r.lat, r.lon)), ?_, rfl⟩)
      refine List.mem_filter.mpr ⟨?_, decide_eq_true rfl⟩
      exact List.mem_flatMap.mpr ⟨r, hr, List.mem_map.mpr ⟨k, hk, rfl⟩⟩
  · intro v hv
    unfold stationLookup at hv
    revert hv
    cases hc : stationContribs stops k with
    | nil => intro hv; cases hv
    | cons a l =>
        intro hv
        exact (Option.some_inj.mp hv).symm

/-- Witness for claim C2: one stop named `west side of king station`; the key
`side of king station` is in the index and the lookup returns the average of
its contributions. -/
theorem claim_C2_station_index_witness :
    stationLookup [⟨strL "west side of king station", 1, 1⟩] (strL "side of king station") =
        some (1, 1) ∧
      ((1 : ℚ), (1 : ℚ)) = avgPair (stationContribs
        [⟨strL "west side of king station", 1, 1⟩] (strL "side of king station")) :=
  ⟨by with_unfolding_all rfl,
    (claim_C2_station_index [⟨strL "west side of king station", 1, 1⟩]
      (strL "west side of king station") (strL "side of king station")).2.2 (1, 1)
      (by with_unfolding_all rfl)⟩

/-- Counterexample to claim C2 as stated: for the stop
`west side of king station`, the suffix window `king station` (length 2) is
NOT a key of the station index — only the single widest window
`side of king station` is inserted for the lone `station` occurrence. -/
theorem claim_C2_station_index_counterexample :
    stationLookup [⟨strL "west side of king station", 1, 1⟩] (strL "king station") = none ∧
      stationLookup [⟨strL "west side of king station", 1, 1⟩] (strL "side of king station") =
        some (1, 1) := by
  constructor
  · with_unfolding_all rfl
  · with_unfolding_all rfl

/-- Claim C8 (amended): intersection resolution is order-independent PROVIDED
neither normalized query is itself an exact key: under that hypothesis,
resolving `Bathurst and Wilson` and `Wilson and Bathurst` give the same
result, because both reach the intersection strategy with the same sorted key
`(bathurst, wilson)` and, failing that, the same token set. -/
theorem claim_C8_intersection_symmetry (stops : List Stop)
    (h1 : exactLookup stops (strL "bathurst at wilson") = none)
    (h2 : exactLookup stops (strL "wilson at bathurst") = none) :
    resolveRaw stops (some (strL "Bathurst and Wilson")) =
      resolveRaw stops (some (strL "Wilson and Bathurst")) := by
  have hc1 : cleanOpt (some (strL "Bathurst and Wilson")) = strL "bathurst at wilson" := by
    decide
  have hc2 : cleanOpt (some (strL "Wilson and Bathurst")) = strL "wilson at bathurst" := by
    decide
  have hs1 : stationStrategy stops (strL "bathurst at wilson") = none := by
    unfold stationStrategy
    rw [if_neg (by decide)]
  have hs2 : stationStrategy stops (strL "wilson at bathurst") = none := by
    unfold stationStrategy
    rw [if_neg (by decide)]
  have hi1 : interStrategy stops (strL "bathurst at wilson") =
      interLookup stops (strL "bathurst", strL "wilson") := by
    unfold interStrategy
    rw [if_pos (by decide), show splitAtSep (strL "bathurst at wilson") =
      [strL "bathurst", strL "wilson"] from by decide]
    with_unfolding_all rfl
  have hi2 : interStrategy stops (strL "wilson at bathurst") =
      interLookup stops (strL "bathurst", strL "wilson") := by
    unfold interStrategy
    rw [if_pos (by decide), show splitAtSep (strL "wilson at bathurst") =
      [strL "wilson", strL "bathurst"] from by decide]
    with_unfolding_all rfl
  have htok : ((tokensOf (strL "bathurst at wilson")).toFinset : Finset Str) =
      (tokensOf (strL "wilson at bathurst")).toFinset := by decide
  unfold resolveRaw
  rw [hc1, hc2]
  unfold resolveClean
  rw [if_neg (by decide), if_neg (by decide), h1, h2, hs1, hs2, hi1, hi2, htok]

/-- Witness for claim C8 at a one-stop set where neither query is an exact
key. -/
theorem claim_C8_intersection_symmetry_witness :
    (exactLookup [⟨strL "bathurst st at wilson ave", 2, 4⟩] (strL "bathurst at wilson") = none ∧
      exactLookup [⟨strL "bathurst st at wilson ave", 2, 4⟩] (strL "wilson at bathurst") = none) ∧
    resolveRaw [⟨strL "bathurst st at wilson ave", 2, 4⟩] (some (strL "Bathurst and Wilson")) =
      resolveRaw [⟨strL "bathurst st at wilson ave", 2, 4⟩] (some (strL "Wilson and Bathurst")) :=
  ⟨⟨by with_unfolding_all rfl, by with_unfolding_all rfl⟩,
    claim_C8_intersection_symmetry [⟨strL "bathurst st at wilson ave", 2, 4⟩]
      (by with_unfolding_all rfl) (by with_unfolding_all rfl)⟩

/-- Counterexample to claim C8 as stated: when one query happens to be an
exact key, the exact strategy intercepts it while the reversed query falls
through to the intersection average, so the two orders return different
coordinates. -/
theorem claim_C8_intersection_symmetry_counterexample :
    resolveRaw [⟨strL "bathurst at wilson", 1, 1⟩, ⟨strL "wilson st at bathurst ave", 3, 3⟩]
        (some (strL "Bathurst and Wilson")) = (some (1, 1), Strat.exact) ∧
      resolveRaw [⟨strL "bathurst at wilson", 1, 1⟩, ⟨strL "wilson st at bathurst ave", 3, 3⟩]
          (some (strL "Wilson and Bathurst")) = (some (2, 2), Strat.intersection) ∧
      ¬ ((1 : ℚ), (1 : ℚ)) = ((2 : ℚ), (2 : ℚ)) := by
  refine ⟨by with_unfolding_all rfl, by with_unfolding_all rfl, fun h => ?_⟩
  have := congrArg Prod.fst h
  norm_num at this

/-- Characterization of the partial-match fold: the result is either the
initial accumulator, or a qualifying item's coordinates paired with its score;
the best score never decreases; and every qualifying item's score is bounded
by the final score. -/
theorem partialFold_spec (locW : Finset Str) (items : List (Str × (ℚ × ℚ))) :
    ∀ best : Option (ℚ × ℚ) × ℚ,
      (items.foldl (partialStep locW) best = best ∨
        ∃ item ∈ items, qualifies locW item.1 ∧
          items.foldl (partialStep locW) best = (some item.2, pscore locW item.1)) ∧
      best.2 ≤ (items.foldl (partialStep locW) best).2 ∧
      (∀ item ∈ items, qualifies locW item.1 →
        pscore locW item.1 ≤ (items.foldl (partialStep locW) best).2) := by
  induction items with
  | nil =>
      intro best
      exact ⟨Or.inl rfl, le_refl _, fun item h => absurd h (List.not_mem_nil _)⟩
  | cons it items ih =>
      intro best
      have hstep : (partialStep locW best it = best ∧
            (qualifies locW it.1 → pscore locW it.1 ≤ best.2)) ∨
          (qualifies locW it.1 ∧
            partialStep locW best it = (some it.2, pscore locW it.1) ∧
            best.2 < pscore locW it.1) := by
        unfold partialStep
        by_cases hq : qualifies locW it.1
        · rw [if_pos hq]
          by_cases hlt : best.2 < pscore locW it.1
          · rw [if_pos hlt]
            exact Or.inr ⟨hq, rfl, hlt⟩
          · rw [if_neg hlt]
            exact Or.inl ⟨rfl, fun _ => le_of_not_lt hlt⟩
        · rw [if_neg hq]
          exact Or.inl ⟨rfl, fun h => absurd h hq⟩
      obtain ⟨ih1, ih2, ih3⟩ := ih (partialStep locW best it)
      have hfold : (it :: items).foldl (partialStep locW) best =
          items.foldl (partialStep locW) (partialStep locW best it) := rfl
      rw [hfold]
      refine ⟨?_, ?_, ?_⟩
      · rcases ih1 with heq | ⟨item, hm, hq, heq⟩
        · rcases hstep with ⟨he, _⟩ | ⟨hq, he, _⟩
          · exact Or.inl (heq.trans he)
          · exact Or.inr ⟨it, List.mem_cons_self _ _, hq, heq.trans he⟩
        · exact Or.inr ⟨item, List.mem_cons_of_mem _ hm, hq, heq⟩
      · rcases hstep with ⟨he, _⟩ | ⟨_, he, hlt⟩
        · exact le_trans (le_of_eq (congrArg Prod.snd he.symm)) ih2
        · exact le_trans (le_of_lt (lt_of_lt_of_le hlt (le_of_eq
            (congrArg Prod.snd he.symm)))) ih2
      · intro item hm hq
        rcases List.mem_cons.mp hm with hit | hmem
        · subst hit
          rcases hstep with ⟨he, himp⟩ | ⟨_, he, _⟩
          · exact le_trans (himp hq)
              (le_trans (le_of_eq (congrArg Prod.snd he.symm)) ih2)
          · exact le_trans (le_of_eq (congrArg Prod.snd he).symm) ih2
        · exact ih3 item hmem hq

/-- Inversion of a successful partial strategy: the token set had at least two
elements, the fold produced this candidate, and its score met the 0.5
threshold. -/
theorem partialStrategy_some (stops : List Stop) (locW : Finset Str) (c : ℚ × ℚ)
    (h : partialStrategy stops locW = some c) :
    2 ≤ locW.card ∧ (partialBest (exactItems stops) locW).1 = some c ∧
      1/2 ≤ (partialBest (exactItems stops) locW).2 := by
  have hunf : partialStrategy stops locW =
      if 2 ≤ locW.card then
        match (partialBest (exactItems stops) locW).1 with
        | some c0 =>
            if 1/2 ≤ (partialBest (exactItems stops) locW).2 then some c0 else none
        | none => none
      else none := rfl
  rw [hunf] at h
  split at h
  · rename_i hcard
    split at h
    · rename_i c' heq
      split at h
      · rename_i hsc
        exact ⟨hcard, by rw [heq, Option.some_inj.mp h], hsc⟩
      · cases h
    · cases h
  · cases h

/-- Inversion of `resolveClean` at the partial tag: the pair came from the
partial strategy. -/
theorem resolveClean_partialTag (stops : List Stop) (loc : Str) :
    ∀ p, resolveClean stops loc = p → p.2 = Strat.partialTag →
      ∃ c, partialStrategy stops ((tokensOf loc).toFinset) = some c ∧
        p = (some c, Strat.partialTag) := by
  intro p hp
  unfold resolveClean at hp
  split at hp
  · intro ht
    rw [← hp] at ht
    simp at ht
  · split at hp
    · intro ht
      rw [← hp] at ht
      simp at ht
    · split at hp
      · intro ht
        rw [← hp] at ht
        simp at ht
      · split at hp
        · intro ht
          rw [← hp] at ht
          simp at ht
        · split at hp
          · rename_i c' heq
            intro _
            exact ⟨c', heq, hp.symm⟩
          · intro ht
            rw [← hp] at ht
            simp at ht

/-- Claim C7: the partial fallback fires only for inputs with at least two
distinct tokens, and a partial outcome is always a qualifying exact-index
item (≥ 2 shared tokens after stop-word exclusion) whose score is maximal
among qualifying items and at least 0.5. -/
theorem claim_C7_partial_fallback (stops : List Stop) (loc : Str) :
    ((tokensOf loc).toFinset.card < 2 →
      (resolveClean stops loc).2 ≠ Strat.partialTag) ∧
    (∀ c, resolveClean stops loc = (some c, Strat.partialTag) →
      2 ≤ (tokensOf loc).toFinset.card ∧
      ∃ item ∈ exactItems stops, c = item.2 ∧
        qualifies ((tokensOf loc).toFinset) item.1 ∧
        1/2 ≤ pscore ((tokensOf loc).toFinset) item.1 ∧
        ∀ other ∈ exactItems stops, qualifies ((tokensOf loc).toFinset) other.1 →
          pscore ((tokensOf loc).toFinset) other.1 ≤
            pscore ((tokensOf loc).toFinset) item.1) := by
  constructor
  · intro hcard ht
    obtain ⟨c, hps, _⟩ := resolveClean_partialTag stops loc _ rfl ht
    exact absurd (partialStrategy_some stops _ c hps).1 (not_le_of_lt hcard)
  · intro c hrc
    obtain ⟨c', hps, hpe⟩ := resolveClean_partialTag stops loc _ hrc rfl
    have hcc : c' = c := by
      have := congrArg Prod.fst hpe
      exact (Option.some_inj.mp this).symm
    subst hcc
    obtain ⟨hcard, hbest1, hbest2⟩ := partialStrategy_some stops _ c' hps
    obtain ⟨hres, _, hmax⟩ :=
      partialFold_spec ((tokensOf loc).toFinset) (exactItems stops) (none, 0)
    refine ⟨hcard, ?_⟩
    have hpb : partialBest (exactItems stops) ((tokensOf loc).toFinset) =
        (exactItems stops).foldl (partialStep ((tokensOf loc).toFinset)) (none, 0) := rfl
    rcases hres with hnone | ⟨item, hm, hq, heq⟩
    · rw [hpb, hnone] at hbest1
      cases hbest1
    · refine ⟨item, hm, ?_, hq, ?_, ?_⟩
      · rw [hpb, heq] at hbest1
        exact (Option.some_inj.mp hbest1).symm
      · rw [hpb, heq] at hbest2
        exact hbest2
      · intro other hom hoq
        have := hmax other hom hoq
        rw [heq] at this
        exact this

/-- Witness for claim C7: a one-token input never yields the partial tag, and
a two-token garage query resolves partially to the qualifying stop. -/
theorem claim_C7_partial_fallback_witness :
    ((tokensOf (strL "king")).toFinset.card < 2 ∧
      (resolveClean [⟨strL "king garage loop", 5, 7⟩, ⟨strL "queen st", 9, 9⟩]
        (strL "king")).2 ≠ Strat.partialTag) ∧
    (resolveClean [⟨strL "king garage loop", 5, 7⟩, ⟨strL "queen st", 9, 9⟩]
        (strL "king garage") = (some (5, 7), Strat.partialTag) ∧
      2 ≤ (tokensOf (strL "king garage")).toFinset.card) :=
  ⟨⟨by decide,
      (claim_C7_partial_fallback [⟨strL "king garage loop", 5, 7⟩, ⟨strL "queen st", 9, 9⟩]
        (strL "king")).1 (by decide)⟩,
    ⟨by with_unfolding_all rfl,
      ((claim_C7_partial_fallback [⟨strL "king garage loop", 5, 7⟩, ⟨strL "queen st", 9, 9⟩]
        (strL "king garage")).2 (5, 7) (by with_unfolding_all rfl)).1⟩⟩
